/-
Verification of the tree-fs repository (kaplanelad/tree-fs).

The repository contains three historical variants of the same library:
* `temp_dir_builder` (src/src/lib.rs): the strict materializer
  `TempDirectoryBuilder::build` with lexical path-containment checking and
  `DuplicateEntry` on any already-existing resolved path;
* `tree_fs` (src/src/builder.rs, src/src/tree.rs): the tolerant materializer
  `TreeBuilder::create` with skip-on-exists (unless `override_file`) and
  per-entry `Settings` (read-only flag), plus `impl Drop for Tree`;
* legacy `tree-fs` (src/tree-fs/src/lib.rs): `Tree::create` over
  `FileMetadata` entries, which never creates the root directory itself.

The filesystem is modelled as an association list from paths to nodes
(directories and files with byte content and a read-only permission bit).
Paths are component lists with an absoluteness flag.  The strict variant
cleans paths lexically itself (`path_clean`, embedded as `FsPath.clean`,
the algorithm of Go's `path.Clean`).  The tolerant and legacy variants
hand raw, uncleaned paths to the operating system, and the model resolves
them as the system does absent symbolic links: component by component
against the directory structure (`fsWalkAcc`/`fsExists` for `stat`,
`fsCreateDirAllRawGo` for `create_dir_all`), so a `..` component crossing
a missing directory makes a `stat` fail — `Path::exists` is then false
even if the lexically cleaned location holds an object — and makes
`create_dir_all` create that intermediate directory on the way.  A raw
path all of whose intermediate stops are directories reaches exactly the
lexically cleaned location.  `std::io::Error` payloads are not modelled; the
`BuildError` taxonomy of the strict variant is modelled in full.
Write-permission on directories is not modelled; the read-only bit on files
is: creating or writing a file over an existing read-only file fails, which
is what makes "read-only is applied only after the content is written" a
substantive, checkable ordering property.
-/

import Mathlib

set_option maxHeartbeats 1000000

/-- A path: an absoluteness flag plus raw components (which may still
contain `"."` and `".."`). Mirrors `std::path::PathBuf` at the component
level. -/
structure FsPath where
  absolute : Bool
  comps : List String
deriving DecidableEq, Repr

/-- `PathBuf::join`: an absolute right-hand side replaces the left-hand side. -/
def FsPath.join (p q : FsPath) : FsPath :=
  if q.absolute then q else ⟨p.absolute, p.comps ++ q.comps⟩

/-- One step of the `path_clean` fold over components. -/
def cleanStep (absolute : Bool) (acc : List String) (c : String) : List String :=
  if c = "." then acc
  else if c = ".." then
    match acc with
    | [] => if absolute then [] else [".."]
    | a :: rest => if a = ".." then ".." :: a :: rest else rest
  else c :: acc

/-- `path_clean::PathClean::clean` on a component list: drop `"."`,
resolve `".."` against preceding components (keeping leading `".."` on
relative paths, dropping it at the root of absolute paths). -/
def cleanComps (absolute : Bool) (cs : List String) : List String :=
  (cs.foldl (cleanStep absolute) []).reverse

/-- Lexical cleaning of a path; an empty relative result becomes `"."`,
as in `path_clean`. -/
def FsPath.clean (p : FsPath) : FsPath :=
  let cs := cleanComps p.absolute p.comps
  if cs.isEmpty && !p.absolute then ⟨false, ["."]⟩ else ⟨p.absolute, cs⟩

/-- `Path::parent`, collapsed with the `create_dir_all("")`-is-a-no-op
convention: just drop the last component. -/
def FsPath.parent (p : FsPath) : FsPath :=
  ⟨p.absolute, p.comps.dropLast⟩

/-- `Path::starts_with`: whole-component prefix, same absoluteness. -/
def FsPath.startsWith (p base : FsPath) : Bool :=
  (p.absolute == base.absolute) && decide (base.comps <+: p.comps)

/-- `OsStr::is_empty` on the textual path: no components and not absolute. -/
def FsPath.isEmptyPath (p : FsPath) : Bool :=
  (!p.absolute) && p.comps.isEmpty

/-- The resolved (on-disk) location of an entry declared at relative path
`p` under `root`: join then lexical clean.  The strict variant computes
exactly this before its checks; for the other variants it is what the
operating system's path resolution produces, symlinks being absent. -/
def resolvedPath (root p : FsPath) : FsPath :=
  (FsPath.join root p).clean

/-- A filesystem object: a directory or a file with byte content, each with
a read-only permission bit. -/
inductive FsNode where
  | dir (readonly : Bool)
  | file (content : List Nat) (readonly : Bool)
deriving DecidableEq, Repr

/-- Filesystem state: an association list from paths to nodes; the first
binding of a path shadows later ones. -/
abbrev Fs := List (FsPath × FsNode)

/-- Look a path up in the filesystem. -/
def fsLookup : Fs → FsPath → Option FsNode
  | [], _ => none
  | (q, n) :: rest, p => if q = p then some n else fsLookup rest p

/-- Create or replace the object stored at a path. -/
def fsSet (fs : Fs) (p : FsPath) (n : FsNode) : Fs :=
  (p, n) :: fs

/-- Whether a path can serve as the parent directory of a new object: the
filesystem root (empty component list) always exists as a directory. -/
def fsIsDir (fs : Fs) (p : FsPath) : Bool :=
  p.comps.isEmpty ||
    match fsLookup fs p with
    | some (.dir _) => true
    | _ => false

/-- The recursion of `std::fs::create_dir_all`: walk the missing prefixes
of the target, failing if a file occupies one of them. -/
def fsCreateDirAllGo (ab : Bool) : Fs → List String → List String → Option Fs
  | fs, _, [] => some fs
  | fs, done, c :: rest =>
    let q : FsPath := ⟨ab, done ++ [c]⟩
    match fsLookup fs q with
    | some (.dir _) => fsCreateDirAllGo ab fs (done ++ [c]) rest
    | some (.file _ _) => none
    | none => fsCreateDirAllGo ab (fsSet fs q (.dir false)) (done ++ [c]) rest

/-- `std::fs::create_dir_all`: create the directory and all missing
ancestors; succeeds if it already exists as a directory. -/
def fsCreateDirAll (fs : Fs) (p : FsPath) : Option Fs :=
  fsCreateDirAllGo p.absolute fs [] p.comps

/-- `std::fs::create_dir`: non-recursive directory creation; fails on an
existing object or a missing/non-directory parent. -/
def fsCreateDir (fs : Fs) (p : FsPath) : Option Fs :=
  if p.comps.isEmpty then none
  else if (fsLookup fs p).isSome then none
  else if fsIsDir fs p.parent then some (fsSet fs p (.dir false)) else none

/-- `std::fs::File::create`: truncating create.  Fails on a directory, on
an existing read-only file (permission denied), on a missing parent, and
on a path that resolves to the process's current directory itself (the
empty path and the cleaned form `"."`), which `File::create` can never
create. -/
def fsCreateFile (fs : Fs) (p : FsPath) : Option Fs :=
  if p.comps.isEmpty then none
  else if p.comps = ["."] then none
  else
    match fsLookup fs p with
    | some (.dir _) => none
    | some (.file _ true) => none
    | some (.file _ false) => some (fsSet fs p (.file [] false))
    | none => if fsIsDir fs p.parent then some (fsSet fs p (.file [] false)) else none

/-- `Write::write_all` on a freshly created (writable) file. -/
def fsWrite (fs : Fs) (p : FsPath) (bytes : List Nat) : Option Fs :=
  match fsLookup fs p with
  | some (.file _ false) => some (fsSet fs p (.file bytes false))
  | _ => none

/-- `set_permissions(.., readonly = true)` after `metadata`: fails only if
the object is missing. -/
def fsSetReadonly (fs : Fs) (p : FsPath) : Option Fs :=
  match fsLookup fs p with
  | some (.dir _) => some (fsSet fs p (.dir true))
  | some (.file c _) => some (fsSet fs p (.file c true))
  | none => none

/-- `std::fs::copy src dst`: read the source file (a missing or directory
source fails) and write its content, carrying the permission bits, to a
truncating create of the destination. -/
def fsCopy (fs : Fs) (src dst : FsPath) : Option Fs :=
  match fsLookup fs src with
  | some (.file bytes ro) =>
    if dst.comps.isEmpty then none
    else
      (match fsLookup fs dst with
      | some (.dir _) => none
      | some (.file _ true) => none
      | some (.file _ false) => some (fsSet fs dst (.file bytes ro))
      | none => if fsIsDir fs dst.parent then some (fsSet fs dst (.file bytes ro)) else none)
  | _ => none

/-- `std::fs::remove_dir_all`: drop every object at or below the target
(the result of the underlying call is discarded by both `Drop` impls). -/
def fsRemoveTree (fs : Fs) (p : FsPath) : Fs :=
  fs.filter (fun kv => !(FsPath.startsWith kv.1 p.clean))

instance {ε α : Type} [DecidableEq ε] [DecidableEq α] : DecidableEq (Except ε α) := fun x y =>
  match x, y with
  | .ok a, .ok b =>
    if h : a = b then .isTrue (by rw [h]) else .isFalse (fun hh => by cases hh; exact h rfl)
  | .error a, .error b =>
    if h : a = b then .isTrue (by rw [h]) else .isFalse (fun hh => by cases hh; exact h rfl)
  | .ok _, .error _ => .isFalse (fun hh => by cases hh)
  | .error _, .ok _ => .isFalse (fun hh => by cases hh)

/-- UTF-8 encoding of one Unicode scalar value. -/
def utf8Bytes (c : Nat) : List Nat :=
  if c < 0x80 then [c]
  else if c < 0x800 then [0xC0 ||| (c >>> 6), 0x80 ||| (c &&& 0x3F)]
  else if c < 0x10000 then
    [0xE0 ||| (c >>> 12), 0x80 ||| ((c >>> 6) &&& 0x3F), 0x80 ||| (c &&& 0x3F)]
  else
    [0xF0 ||| (c >>> 18), 0x80 ||| ((c >>> 12) &&& 0x3F),
      0x80 ||| ((c >>> 6) &&& 0x3F), 0x80 ||| (c &&& 0x3F)]

/-- UTF-8 bytes of a string, as written by `write_all(text.as_bytes())`. -/
def strBytes (s : String) : List Nat :=
  s.data.flatMap (fun ch => utf8Bytes ch.toNat)

/-- One step of physical path resolution: system calls resolve a raw path
component by component, descending into (and requiring) a directory at
every intermediate stop; absent symbolic links the location reached is the
one `cleanStep` computes.  The accumulator holds the resolved components
in reverse, like the `cleanComps` fold. -/
def fsWalkAcc (fs : Fs) (ab : Bool) : List String → List String → Option (List String)
  | acc, [] => some acc
  | acc, c :: rest =>
    if fsIsDir fs ⟨ab, acc.reverse⟩ then fsWalkAcc fs ab (cleanStep ab acc c) rest
    else none

/-- `Path::exists` (a `stat` of the raw, uncleaned path), as the tolerant
variant's skip guard calls it.  The walk fails — and the path "does not
exist" — whenever a component (in particular a `..`) must be resolved
against a missing directory, even if the lexically cleaned location does
hold an object; the empty path never exists. -/
def fsExists (fs : Fs) (p : FsPath) : Bool :=
  if p.isEmptyPath then false
  else
    match fsWalkAcc fs p.absolute [] p.comps with
    | some acc => acc.isEmpty || (fsLookup fs ⟨p.absolute, acc.reverse⟩).isSome
    | none => false

/-- `std::fs::create_dir_all` on a possibly uncleaned path: the recursion
on `Path::parent` ensures every lexical prefix, resolved physically step
by step, is a directory, creating the missing ones — so
`create_dir_all("r/a/../f")` really creates `r/a` on the way. -/
def fsCreateDirAllRawGo (ab : Bool) : Fs → List String → List String → Option Fs
  | fs, _, [] => some fs
  | fs, acc, c :: rest =>
    if (cleanStep ab acc c).isEmpty then fsCreateDirAllRawGo ab fs (cleanStep ab acc c) rest
    else
      match fsLookup fs ⟨ab, (cleanStep ab acc c).reverse⟩ with
      | some (.dir _) => fsCreateDirAllRawGo ab fs (cleanStep ab acc c) rest
      | some (.file _ _) => none
      | none =>
        fsCreateDirAllRawGo ab (fsSet fs ⟨ab, (cleanStep ab acc c).reverse⟩ (.dir false))
          (cleanStep ab acc c) rest

/-- `std::fs::create_dir_all` of a raw path (see `fsCreateDirAllRawGo`). -/
def fsCreateDirAllRaw (fs : Fs) (p : FsPath) : Option Fs :=
  fsCreateDirAllRawGo p.absolute fs [] p.comps

/-- Re-check that every stop of a raw `create_dir_all` walk resolves to a
directory (or the filesystem root): what a successful
`fsCreateDirAllRawGo` guarantees of its output filesystem. -/
def rawAllDirs (fs : Fs) (ab : Bool) : List String → List String → Bool
  | _, [] => true
  | acc, c :: rest =>
    fsIsDir fs ⟨ab, (cleanStep ab acc c).reverse⟩ &&
      rawAllDirs fs ab (cleanStep ab acc c) rest

/-- Filesystem evolution along this library's operations: objects are
never removed, and an object that is a directory stays a directory (files
may be truncated or rewritten, permission bits may change). -/
def FsEvol (fs fs' : Fs) : Prop :=
  (∀ q, (fsLookup fs q).isSome = true → (fsLookup fs' q).isSome = true) ∧
  (∀ q ro, fsLookup fs q = some (.dir ro) → ∃ ro', fsLookup fs' q = some (.dir ro'))


namespace TempDirBuilder

/-- `temp_dir_builder::Kind` (src/src/lib.rs). -/
inductive Kind where
  | Directory
  | EmptyFile
  | TextFile (text : String)
  | BinaryFile (bytes : List Nat)
  | FileToCopy (source : FsPath)
deriving DecidableEq, Repr

/-- `temp_dir_builder::Entry`. -/
structure Entry where
  path : FsPath
  kind : Kind
deriving DecidableEq, Repr

/-- `temp_dir_builder::BuildError`, without the `std::io::Error` payloads. -/
inductive BuildError where
  | FailedToCreateRootDirectory (p : FsPath)
  | FailedToCreateDirectory (p : FsPath)
  | FailedToDeleteDirectory (p : FsPath)
  | FailedToCreateFile (p : FsPath)
  | FailedToCopyFile (p : FsPath)
  | FailedToWriteFile (p : FsPath)
  | EntryOutsideDirectory (p : FsPath)
  | EmptyEntryName (i : Nat)
  | DuplicateEntry (p : FsPath)
deriving DecidableEq, Repr

/-- `temp_dir_builder::TempDirectory`. -/
structure TempDirectory where
  path : FsPath
  delete_on_drop : Bool
deriving DecidableEq, Repr

/-- `temp_dir_builder::TempDirectoryBuilder`. -/
structure TempDirectoryBuilder where
  root : FsPath
  entries : List Entry
  delete_on_drop : Bool
deriving DecidableEq, Repr

/-- The kind dispatch at the end of the entry loop of
`TempDirectoryBuilder::build`, run once all checks have passed and the
parent directory has been ensured. -/
def kindStep (root : FsPath) (fs : Fs) (e : Entry) : Option BuildError × Fs :=
  match e.kind with
  | .Directory =>
    match fsCreateDir fs (resolvedPath root e.path) with
    | none => (some (.FailedToCreateDirectory (resolvedPath root e.path)), fs)
    | some fs2 => (none, fs2)
  | .EmptyFile =>
    match fsCreateFile fs (resolvedPath root e.path) with
    | none => (some (.FailedToCreateFile (resolvedPath root e.path)), fs)
    | some fs2 => (none, fs2)
  | .TextFile text =>
    match fsCreateFile fs (resolvedPath root e.path) with
    | none => (some (.FailedToCreateFile (resolvedPath root e.path)), fs)
    | some fs2 =>
      match fsWrite fs2 (resolvedPath root e.path) (strBytes text) with
      | none => (some (.FailedToWriteFile (resolvedPath root e.path)), fs2)
      | some fs3 => (none, fs3)
  | .BinaryFile bytes =>
    match fsCreateFile fs (resolvedPath root e.path) with
    | none => (some (.FailedToCreateFile (resolvedPath root e.path)), fs)
    | some fs2 =>
      match fsWrite fs2 (resolvedPath root e.path) bytes with
      | none => (some (.FailedToWriteFile (resolvedPath root e.path)), fs2)
      | some fs3 => (none, fs3)
  | .FileToCopy source =>
    match fsCopy fs source (resolvedPath root e.path) with
    | none => (some (.FailedToCopyFile source), fs)
    | some fs2 => (none, fs2)

/-- The body of the `for (entry_index, entry)` loop of
`TempDirectoryBuilder::build`: empty-name check, join + clean, containment
check, duplicate check, parent creation, then dispatch on the kind.
Returns the error (if any) together with the filesystem as left behind. -/
def buildEntry (root : FsPath) (fs : Fs) (idx : Nat) (e : Entry) :
    Option BuildError × Fs :=
  if e.path.isEmptyPath then (some (.EmptyEntryName idx), fs)
  else if !(FsPath.startsWith (resolvedPath root e.path) root) then
    (some (.EntryOutsideDirectory e.path), fs)
  else if (fsLookup fs (resolvedPath root e.path)).isSome then
    (some (.DuplicateEntry (resolvedPath root e.path)), fs)
  else
    match fsCreateDirAll fs (resolvedPath root e.path).parent with
    | none => (some (.FailedToCreateDirectory (resolvedPath root e.path).parent), fs)
    | some fs1 => kindStep root fs1 e

/-- The entry loop of `TempDirectoryBuilder::build`: abort on the first
error, thread the filesystem through. -/
def buildEntries (root : FsPath) : Fs → Nat → List Entry → Option BuildError × Fs
  | fs, _, [] => (none, fs)
  | fs, idx, e :: rest =>
    match buildEntry root fs idx e with
    | (some err, fs') => (some err, fs')
    | (none, fs') => buildEntries root fs' (idx + 1) rest

/-- Step 1 of `TempDirectoryBuilder::build`: create the root (and missing
ancestors) unless it already exists. -/
def stepRoot (root : FsPath) (fs : Fs) : Option BuildError × Fs :=
  if (fsLookup fs root).isSome then (none, fs)
  else
    match fsCreateDirAll fs root with
    | none => (some (.FailedToCreateRootDirectory root), fs)
    | some fs' => (none, fs')

/-- Outcome of a materialization: the returned value and the final
filesystem state. -/
structure BuildOutcome where
  result : Except BuildError TempDirectory
  fs : Fs
deriving DecidableEq, Repr

/-- `TempDirectoryBuilder::build` (src/src/lib.rs, lines 174-237). -/
def TempDirectoryBuilder.build (b : TempDirectoryBuilder) (fs : Fs) : BuildOutcome :=
  match stepRoot b.root fs with
  | (some err, fs') => ⟨.error err, fs'⟩
  | (none, fs') =>
    match buildEntries b.root fs' 0 b.entries with
    | (some err, fs'') => ⟨.error err, fs''⟩
    | (none, fs'') => ⟨.ok ⟨b.root, b.delete_on_drop⟩, fs''⟩

/-- `impl Drop for TempDirectory` (src/src/lib.rs, lines 91-97): a
recursive best-effort delete whose result is discarded; a total function of
the filesystem, so it can neither panic nor surface an error. -/
def TempDirectory.dropRun (t : TempDirectory) (fs : Fs) : Fs :=
  if t.delete_on_drop then fsRemoveTree fs t.path else fs

end TempDirBuilder

namespace TreeFs

/-- `tree_fs::Kind` (src/src/tree.rs). -/
inductive Kind where
  | Directory
  | EmptyFile
  | TextFile (content : String)
deriving DecidableEq, Repr

/-- `tree_fs::Settings`. -/
structure Settings where
  readonly : Bool
deriving DecidableEq, Repr

/-- `tree_fs::Entry`. -/
structure Entry where
  path : FsPath
  kind : Kind
  settings : Option Settings
deriving DecidableEq, Repr

/-- `tree_fs::Tree` (src/src/tree.rs). -/
structure Tree where
  root : FsPath
  drop : Bool
deriving DecidableEq, Repr

/-- `tree_fs::TreeBuilder` (src/src/builder.rs). -/
structure TreeBuilder where
  root : FsPath
  override_file : Bool
  entries : List Entry
  drop : Bool
deriving DecidableEq, Repr

/-- The kind dispatch of the entry loop of `TreeBuilder::create`.  Errors
are bare `std::io::Error`s, modelled as `Unit`.  `create_dir_all` receives
the raw (uncleaned) destination path resp. its lexical parent, exactly as
in the source, so a `..`-component makes it create the intermediate
directory it crosses; the subsequent `File::create`/`write` act at the
physically resolved — i.e. lexically cleaned — location. -/
def kindStepT (root : FsPath) (fs : Fs) (e : Entry) : Option Unit × Fs :=
  match e.kind with
  | .Directory =>
    match fsCreateDirAllRaw fs (FsPath.join root e.path) with
    | none => (some (), fs)
    | some fs1 => (none, fs1)
  | .EmptyFile =>
    match fsCreateDirAllRaw fs (FsPath.join root e.path).parent with
    | none => (some (), fs)
    | some fs1 =>
      match fsCreateFile fs1 (resolvedPath root e.path) with
      | none => (some (), fs1)
      | some fs2 => (none, fs2)
  | .TextFile content =>
    match fsCreateDirAllRaw fs (FsPath.join root e.path).parent with
    | none => (some (), fs)
    | some fs1 =>
      match fsCreateFile fs1 (resolvedPath root e.path) with
      | none => (some (), fs1)
      | some fs2 =>
        match fsWrite fs2 (resolvedPath root e.path) (strBytes content) with
        | none => (some (), fs2)
        | some fs3 => (none, fs3)

/-- The settings stage at the end of the entry loop of
`TreeBuilder::create`: settings are skipped entirely for `Directory`
entries (the `continue`); otherwise `readonly = true` marks the
destination read-only after its content exists. -/
def settingsStep (root : FsPath) (fs : Fs) (e : Entry) : Option Unit × Fs :=
  match e.settings with
  | none => (none, fs)
  | some s =>
    match e.kind with
    | .Directory => (none, fs)
    | _ =>
      if s.readonly then
        match fsSetReadonly fs (resolvedPath root e.path) with
        | none => (some (), fs)
        | some fs2 => (none, fs2)
      else (none, fs)

/-- The body of the entry loop of `TreeBuilder::create`: skip when the
destination exists and `override_file` is off; otherwise create the entry
and afterwards apply its settings.  The skip guard is
`dest_path.exists()`, a stat of the *raw* join: it returns false — and the
entry is *not* skipped — when a `..` component crosses a directory that
does not exist yet, even if the lexically cleaned destination does hold an
object. -/
def createEntry (root : FsPath) (override_file : Bool) (fs : Fs) (e : Entry) :
    Option Unit × Fs :=
  if !override_file && fsExists fs (FsPath.join root e.path) then (none, fs)
  else
    match kindStepT root fs e with
    | (some err, fs1) => (some err, fs1)
    | (none, fs1) => settingsStep root fs1 e

/-- The entry loop of `TreeBuilder::create`. -/
def createEntries (root : FsPath) (override_file : Bool) :
    Fs → List Entry → Option Unit × Fs
  | fs, [] => (none, fs)
  | fs, e :: rest =>
    match createEntry root override_file fs e with
    | (some err, fs') => (some err, fs')
    | (none, fs') => createEntries root override_file fs' rest

/-- Outcome of `TreeBuilder::create`. -/
structure CreateOutcome where
  result : Except Unit Tree
  fs : Fs
deriving DecidableEq, Repr

/-- Step 1 of `TreeBuilder::create`: create the root (and missing
ancestors) unless it already exists. -/
def stepRootT (root : FsPath) (fs : Fs) : Option Unit × Fs :=
  if (fsLookup fs root).isSome then (none, fs)
  else
    match fsCreateDirAll fs root with
    | none => (some (), fs)
    | some fs' => (none, fs')

/-- `TreeBuilder::create` (src/src/builder.rs, lines 204-253). -/
def TreeBuilder.create (b : TreeBuilder) (fs : Fs) : CreateOutcome :=
  match stepRootT b.root fs with
  | (some _, fs') => ⟨.error (), fs'⟩
  | (none, fs') =>
    match createEntries b.root b.override_file fs' b.entries with
    | (some _, fs'') => ⟨.error (), fs''⟩
    | (none, fs'') => ⟨.ok ⟨b.root, b.drop⟩, fs''⟩

/-- `impl Drop for Tree` (src/src/tree.rs, lines 20-26): recursive
best-effort delete, result discarded; total, so never a panic and never a
surfaced error. -/
def Tree.dropRun (t : Tree) (fs : Fs) : Fs :=
  if t.drop then fsRemoveTree fs t.root else fs

end TreeFs

namespace TreeFsLegacy

/-- Legacy `tree_fs::FileMetadata` (src/tree-fs/src/lib.rs). -/
structure FileMetadata where
  path : FsPath
  content : Option String
deriving DecidableEq, Repr

/-- Legacy `tree_fs::Tree`. -/
structure Tree where
  root_folder : FsPath
  override_file : Bool
  files : List FileMetadata
deriving DecidableEq, Repr

/-- One file of the legacy `Tree::create` loop. -/
def createFile (root : FsPath) (override_file : Bool) (fs : Fs) (f : FileMetadata) :
    Option Unit × Fs :=
  if !override_file && (fsLookup fs (resolvedPath root f.path)).isSome then (none, fs)
  else
    match fsCreateDirAll fs (resolvedPath root f.path).parent with
    | none => (some (), fs)
    | some fs1 =>
      match fsCreateFile fs1 (resolvedPath root f.path) with
      | none => (some (), fs1)
      | some fs2 =>
        match f.content with
        | none => (none, fs2)
        | some c =>
          match fsWrite fs2 (resolvedPath root f.path) (strBytes c) with
          | none => (some (), fs2)
          | some fs3 => (none, fs3)

/-- The loop of the legacy `Tree::create`. -/
def createFiles (root : FsPath) (override_file : Bool) :
    Fs → List FileMetadata → Option Unit × Fs
  | fs, [] => (none, fs)
  | fs, f :: rest =>
    match createFile root override_file fs f with
    | (some err, fs') => (some err, fs')
    | (none, fs') => createFiles root override_file fs' rest

/-- Legacy `Tree::create` (src/tree-fs/src/lib.rs, lines 123-140).  Note:
it never creates the root folder itself; only parent directories of the
listed files are created on demand. -/
def Tree.create (t : Tree) (fs : Fs) : Option Unit × Fs :=
  createFiles t.root_folder t.override_file fs t.files

end TreeFsLegacy

/-- A concrete root used by witnesses: `/tmp/r`. -/
def rootT : FsPath := ⟨true, ["tmp", "r"]⟩

/-- A builder whose second entry copies from a non-existent source: used to
witness the failure decomposition of C5. -/
def bC5 : TempDirBuilder.TempDirectoryBuilder :=
  ⟨rootT, [⟨⟨false, ["a"]⟩, .EmptyFile⟩,
    ⟨⟨false, ["foo"]⟩, .FileToCopy ⟨true, ["no", "such"]⟩⟩], true⟩

/-- A read-only text-file entry, a read-only empty-file entry and a
directory entry carrying (ignored) read-only settings, for the C7 witness. -/
def eC7f : TreeFs.Entry := ⟨⟨false, ["f"]⟩, .TextFile "hi", some ⟨true⟩⟩

def eC7e : TreeFs.Entry := ⟨⟨false, ["g"]⟩, .EmptyFile, some ⟨true⟩⟩

def eC7d : TreeFs.Entry := ⟨⟨false, ["d"]⟩, .Directory, some ⟨true⟩⟩

/-- A tolerant builder whose only entry collides with a pre-existing
writable file, for the C10 witness: the raw destination stats
successfully, so the entry is skipped and the old content `[9]` and
permission survive even though the entry asks for different content and
readonly. -/
def bC10 : TreeFs.TreeBuilder :=
  ⟨rootT, false, [⟨⟨false, ["f"]⟩, .TextFile "new", some ⟨true⟩⟩], true⟩

/-- A pre-populated filesystem for the C10 witness and counterexample:
`/tmp`, `/tmp/r` and a writable file `/tmp/r/f` with content `[9]`. -/
def fsC10 : Fs :=
  [(⟨true, ["tmp", "r", "f"]⟩, .file [9] false), (rootT, .dir false),
    (⟨true, ["tmp"]⟩, .dir false)]

/-- A tolerant builder declaring its entry at `a/../f` — resolving to the
occupied `/tmp/r/f`, but with the raw join crossing the missing directory
`/tmp/r/a`: `dest_path.exists()` stats the raw join and fails, so the
entry is not skipped even with `override_file = false`; `create_dir_all`
then creates `/tmp/r/a` and `File::create` truncates the pre-existing
file. -/
def bC10c : TreeFs.TreeBuilder :=
  ⟨rootT, false, [⟨⟨false, ["a", "..", "f"]⟩, .TextFile "new", some ⟨true⟩⟩], true⟩

/-- A tolerant builder declaring an entry at `../outside`: used to refute
C1 as stated over the tolerant materializer. -/
def bC1 : TreeFs.TreeBuilder :=
  ⟨rootT, false, [⟨⟨false, ["..", "outside"]⟩, .EmptyFile, none⟩], true⟩

/-- A one-entry tolerant builder and a one-entry strict builder for the C3
witness. -/
def bC3t : TreeFs.TreeBuilder :=
  ⟨rootT, false, [⟨⟨false, ["f"]⟩, .TextFile "x", none⟩], true⟩

def bC3s : TempDirBuilder.TempDirectoryBuilder :=
  ⟨rootT, [⟨⟨false, ["f"]⟩, .EmptyFile⟩], true⟩

/-- A strict builder with an empty entry list, refuting the strict half of
C3 as stated: the second build succeeds instead of failing with
`DuplicateEntry`. -/
def bC3e : TempDirBuilder.TempDirectoryBuilder := ⟨rootT, [], true⟩

/-- A strict builder whose entries resolve to pairwise-distinct paths that
satisfy the amended side conditions, for the C4 witness. -/
def bC4w : TempDirBuilder.TempDirectoryBuilder :=
  ⟨rootT, [⟨⟨false, ["a"]⟩, .Directory⟩, ⟨⟨false, ["a", "b"]⟩, .EmptyFile⟩], true⟩

/-- A strict builder whose entries resolve to pairwise-distinct paths and
yet trigger `DuplicateEntry`: materializing `a/b` first implicitly creates
the directory `a`, so the later `Directory("a")` entry finds its resolved
path already existing. -/
def bC4c : TempDirBuilder.TempDirectoryBuilder :=
  ⟨rootT, [⟨⟨false, ["a", "b"]⟩, .EmptyFile⟩, ⟨⟨false, ["a"]⟩, .Directory⟩], true⟩

/-- A strict builder with no entries, for the C6 witness. -/
def bC6 : TempDirBuilder.TempDirectoryBuilder := ⟨rootT, [], true⟩

/-- A legacy `tree-fs` tree with an empty file list: `create` succeeds but
leaves the filesystem untouched — in particular the root is not created,
refuting C6 as stated over that variant. -/
def ltC6 : TreeFsLegacy.Tree := ⟨rootT, false, []⟩

/-- A strict builder with one text and one binary entry, for the C8
witness. -/
def bC8w : TempDirBuilder.TempDirectoryBuilder :=
  ⟨rootT, [⟨⟨false, ["t"]⟩, .TextFile "hi"⟩,
    ⟨⟨false, ["b"]⟩, .BinaryFile [0, 255]⟩], true⟩

/-- A tolerant builder with `override_file = true` and two entries writing
the same path: the first entry materializes successfully (its write
happens), yet the final read-back at its resolved path is the second
entry's content, refuting C8 as stated. -/
def bC8c : TreeFs.TreeBuilder :=
  ⟨rootT, true, [⟨⟨false, ["f"]⟩, .TextFile "a", none⟩,
    ⟨⟨false, ["f"]⟩, .TextFile "b", none⟩], true⟩

-- Sanity checks of the path model against the repository's test suite.
example : resolvedPath ⟨true, ["tmp", "x"]⟩ ⟨false, ["..", "foo"]⟩ = ⟨true, ["tmp", "foo"]⟩ := by
  decide

example :
    FsPath.startsWith (resolvedPath ⟨true, ["tmp", "x"]⟩ ⟨false, ["..", "foo"]⟩)
      ⟨true, ["tmp", "x"]⟩ = false := by
  decide

example : strBytes "bar" = [98, 97, 114] := by decide

/-! ### Basic lemmas about the filesystem primitives -/

theorem fsLookup_fsSet (fs : Fs) (p : FsPath) (n : FsNode) (q : FsPath) :
    fsLookup (fsSet fs p n) q = if p = q then some n else fsLookup fs q := rfl

/-- `create_dir_all` never disturbs an existing object. -/
theorem fsCreateDirAllGo_pres :
    ∀ (rest : List String) (ab : Bool) (fs : Fs) (done : List String) (fs' : Fs),
    fsCreateDirAllGo ab fs done rest = some fs' →
    ∀ q n, fsLookup fs q = some n → fsLookup fs' q = some n := by
  intro rest
  induction rest with
  | nil =>
    intro ab fs done fs' h q n hq
    simp only [fsCreateDirAllGo, Option.some.injEq] at h
    exact h ▸ hq
  | cons c rest ih =>
    intro ab fs done fs' h q n hq
    simp only [fsCreateDirAllGo] at h
    cases hl : fsLookup fs ⟨ab, done ++ [c]⟩ with
    | none =>
      rw [hl] at h
      refine ih ab _ _ fs' h q n ?_
      rw [fsLookup_fsSet]
      split
      · next heq => rw [← heq] at hq; rw [hq] at hl; exact absurd hl (by simp)
      · exact hq
    | some node =>
      rw [hl] at h
      cases node with
      | dir ro => exact ih ab _ _ fs' h q n hq
      | file content ro => exact absurd h (by simp)

/-- Everything `create_dir_all` adds is a fresh directory along the target
prefix chain. -/
theorem fsCreateDirAllGo_new :
    ∀ (rest : List String) (ab : Bool) (fs : Fs) (done : List String) (fs' : Fs),
    fsCreateDirAllGo ab fs done rest = some fs' →
    ∀ q n, fsLookup fs' q = some n →
      fsLookup fs q = some n ∨
        (n = .dir false ∧ q.absolute = ab ∧
          ∃ l, l ≠ [] ∧ l <+: rest ∧ q.comps = done ++ l) := by
  intro rest
  induction rest with
  | nil =>
    intro ab fs done fs' h q n hq
    simp only [fsCreateDirAllGo, Option.some.injEq] at h
    exact Or.inl (h ▸ hq)
  | cons c rest ih =>
    intro ab fs done fs' h q n hq
    simp only [fsCreateDirAllGo] at h
    cases hl : fsLookup fs ⟨ab, done ++ [c]⟩ with
    | none =>
      rw [hl] at h
      rcases ih ab _ _ fs' h q n hq with hold | ⟨hn, hab, l, hne, hpre, hcomp⟩
      · rw [fsLookup_fsSet] at hold
        by_cases hkey : (⟨ab, done ++ [c]⟩ : FsPath) = q
        · rw [if_pos hkey] at hold
          refine Or.inr ⟨by simpa using hold.symm, by rw [← hkey], [c], by simp, ⟨rest, rfl⟩, ?_⟩
          rw [← hkey]
        · rw [if_neg hkey] at hold
          exact Or.inl hold
      · refine Or.inr ⟨hn, hab, c :: l, by simp, ?_, by simpa using hcomp⟩
        rcases hpre with ⟨t, ht⟩
        exact ⟨t, by simp [ht]⟩
    | some node =>
      rw [hl] at h
      cases node with
      | dir ro =>
        rcases ih ab _ _ fs' h q n hq with hold | ⟨hn, hab, l, hne, hpre, hcomp⟩
        · exact Or.inl hold
        · refine Or.inr ⟨hn, hab, c :: l, by simp, ?_, by simpa using hcomp⟩
          rcases hpre with ⟨t, ht⟩
          exact ⟨t, by simp [ht]⟩
      | file content ro => exact absurd h (by simp)

/-- `create_dir_all` does make every directory along the prefix chain
exist. -/
theorem fsCreateDirAllGo_mk :
    ∀ (rest : List String) (ab : Bool) (fs : Fs) (done : List String) (fs' : Fs),
    fsCreateDirAllGo ab fs done rest = some fs' →
    ∀ l, l ≠ [] → l <+: rest → fsLookup fs' ⟨ab, done ++ l⟩ ≠ none := by
  intro rest
  induction rest with
  | nil =>
    intro ab fs done fs' h l hne hpre
    rcases hpre with ⟨t, ht⟩
    exact absurd (List.append_eq_nil.mp ht).1 hne
  | cons c rest ih =>
    intro ab fs done fs' h l hne hpre
    simp only [fsCreateDirAllGo] at h
    rcases l with _ | ⟨a, l⟩
    · exact absurd rfl hne
    · have hac : a = c ∧ l <+: rest := by
        rcases hpre with ⟨t, ht⟩
        simp only [List.cons_append, List.cons.injEq] at ht
        exact ⟨ht.1, ⟨t, ht.2⟩⟩
      obtain ⟨ha, hlrest⟩ := hac
      subst ha
      cases hl : fsLookup fs ⟨ab, done ++ [a]⟩ with
      | none =>
        rw [hl] at h
        rcases l with _ | ⟨b, l⟩
        · intro hnone
          have := fsCreateDirAllGo_pres rest ab _ _ fs' h ⟨ab, done ++ [a]⟩ (.dir false)
            (by rw [fsLookup_fsSet, if_pos rfl])
          rw [this] at hnone
          cases hnone
        · have := ih ab _ (done ++ [a]) fs' h (b :: l) (by simp) hlrest
          simpa using this
      | some node =>
        rw [hl] at h
        cases node with
        | dir ro =>
          rcases l with _ | ⟨b, l⟩
          · intro hnone
            have := fsCreateDirAllGo_pres rest ab _ _ fs' h ⟨ab, done ++ [a]⟩ (.dir ro) hl
            rw [this] at hnone
            cases hnone
          · have := ih ab _ (done ++ [a]) fs' h (b :: l) (by simp) hlrest
            simpa using this
        | file content ro => exact absurd h (by simp)


theorem startsWith_iff {p base : FsPath} :
    FsPath.startsWith p base = true ↔
      p.absolute = base.absolute ∧ base.comps <+: p.comps := by
  simp [FsPath.startsWith]

theorem dropLastPre (l : List String) : l.dropLast <+: l :=
  List.dropLast_prefix l

theorem prefEqOfLen {l₁ l₂ : List String} (h : l₁ <+: l₂)
    (hl : l₁.length = l₂.length) : l₁ = l₂ :=
  h.eq_of_length hl

theorem prefAntisymm {l₁ l₂ : List String} (h1 : l₁ <+: l₂) (h2 : l₂ <+: l₁) :
    l₁ = l₂ :=
  prefEqOfLen h1 (le_antisymm h1.length_le h2.length_le)

theorem fsCreateDirAll_pres {fs fs' : Fs} {p : FsPath}
    (h : fsCreateDirAll fs p = some fs') :
    ∀ q n, fsLookup fs q = some n → fsLookup fs' q = some n :=
  fsCreateDirAllGo_pres p.comps p.absolute fs [] fs' h

theorem fsCreateDirAll_new {fs fs' : Fs} {p : FsPath}
    (h : fsCreateDirAll fs p = some fs') :
    ∀ q n, fsLookup fs' q = some n →
      fsLookup fs q = some n ∨
        (n = .dir false ∧ q.absolute = p.absolute ∧ q.comps <+: p.comps ∧ q.comps ≠ []) := by
  intro q n hq
  rcases fsCreateDirAllGo_new p.comps p.absolute fs [] fs' h q n hq with hold | ⟨hn, hab, l, hne, hpre, hcomp⟩
  · exact Or.inl hold
  · exact Or.inr ⟨hn, hab, by simpa [hcomp] using hpre, by simpa [hcomp] using hne⟩

theorem fsCreateDirAll_mk {fs fs' : Fs} {p : FsPath}
    (h : fsCreateDirAll fs p = some fs') (hne : p.comps ≠ []) :
    fsLookup fs' p ≠ none := by
  have := fsCreateDirAllGo_mk p.comps p.absolute fs [] fs' h p.comps hne ⟨[], by simp⟩
  simpa using this

theorem fsCreateDir_pres {fs fs' : Fs} {p : FsPath}
    (h : fsCreateDir fs p = some fs') :
    ∀ q n, q ≠ p → fsLookup fs q = some n → fsLookup fs' q = some n := by
  intro q n hne hq
  unfold fsCreateDir at h
  split at h
  · cases h
  · split at h
    · cases h
    · split at h
      · cases h
        rw [fsLookup_fsSet, if_neg (fun hh => hne hh.symm)]
        exact hq
      · cases h

theorem fsCreateDir_new {fs fs' : Fs} {p : FsPath}
    (h : fsCreateDir fs p = some fs') :
    ∀ q n, fsLookup fs' q = some n → fsLookup fs q = some n ∨ q = p := by
  intro q n hq
  unfold fsCreateDir at h
  split at h
  · cases h
  · split at h
    · cases h
    · split at h
      · cases h
        rw [fsLookup_fsSet] at hq
        by_cases hpq : p = q
        · exact Or.inr hpq.symm
        · rw [if_neg hpq] at hq; exact Or.inl hq
      · cases h

theorem fsCreateDir_point {fs fs' : Fs} {p : FsPath}
    (h : fsCreateDir fs p = some fs') :
    fsLookup fs' p = some (.dir false) := by
  unfold fsCreateDir at h
  split at h
  · cases h
  · split at h
    · cases h
    · split at h
      · cases h
        rw [fsLookup_fsSet, if_pos rfl]
      · cases h

theorem fsCreateFile_pres {fs fs' : Fs} {p : FsPath}
    (h : fsCreateFile fs p = some fs') :
    ∀ q n, q ≠ p → fsLookup fs q = some n → fsLookup fs' q = some n := by
  intro q n hne hq
  unfold fsCreateFile at h
  split at h
  · cases h
  · split at h
    · cases h
    · split at h
      · cases h
      · cases h
      · cases h
        rw [fsLookup_fsSet, if_neg (fun hh => hne hh.symm)]
        exact hq
      · split at h
        · cases h
          rw [fsLookup_fsSet, if_neg (fun hh => hne hh.symm)]
          exact hq
        · cases h

theorem fsCreateFile_new {fs fs' : Fs} {p : FsPath}
    (h : fsCreateFile fs p = some fs') :
    ∀ q n, fsLookup fs' q = some n → fsLookup fs q = some n ∨ q = p := by
  intro q n hq
  unfold fsCreateFile at h
  split at h
  · cases h
  · by_cases hpq : q = p
    · exact Or.inr hpq
    · split at h
      · cases h
      · split at h
        · cases h
        · cases h
        · cases h
          rw [fsLookup_fsSet, if_neg (fun hh => hpq hh.symm)] at hq
          exact Or.inl hq
        · split at h
          · cases h
            rw [fsLookup_fsSet, if_neg (fun hh => hpq hh.symm)] at hq
            exact Or.inl hq
          · cases h

theorem fsCreateFile_point {fs fs' : Fs} {p : FsPath}
    (h : fsCreateFile fs p = some fs') :
    fsLookup fs' p = some (.file [] false) := by
  unfold fsCreateFile at h
  split at h
  · cases h
  · split at h
    · cases h
    · split at h
      · cases h
      · cases h
      · cases h
        rw [fsLookup_fsSet, if_pos rfl]
      · split at h
        · cases h
          rw [fsLookup_fsSet, if_pos rfl]
        · cases h

theorem fsWrite_pres {fs fs' : Fs} {p : FsPath} {bytes : List Nat}
    (h : fsWrite fs p bytes = some fs') :
    ∀ q n, q ≠ p → fsLookup fs q = some n → fsLookup fs' q = some n := by
  intro q n hne hq
  unfold fsWrite at h
  split at h
  · cases h
    rw [fsLookup_fsSet, if_neg (fun hh => hne hh.symm)]
    exact hq
  · cases h

theorem fsWrite_new {fs fs' : Fs} {p : FsPath} {bytes : List Nat}
    (h : fsWrite fs p bytes = some fs') :
    ∀ q n, fsLookup fs' q = some n → fsLookup fs q = some n ∨ q = p := by
  intro q n hq
  unfold fsWrite at h
  split at h
  · cases h
    by_cases hpq : p = q
    · exact Or.inr hpq.symm
    · rw [fsLookup_fsSet, if_neg hpq] at hq
      exact Or.inl hq
  · cases h

theorem fsWrite_point {fs fs' : Fs} {p : FsPath} {bytes : List Nat}
    (h : fsWrite fs p bytes = some fs') :
    fsLookup fs' p = some (.file bytes false) := by
  unfold fsWrite at h
  split at h
  · cases h
    rw [fsLookup_fsSet, if_pos rfl]
  · cases h

theorem fsSetReadonly_pres {fs fs' : Fs} {p : FsPath}
    (h : fsSetReadonly fs p = some fs') :
    ∀ q n, q ≠ p → fsLookup fs q = some n → fsLookup fs' q = some n := by
  intro q n hne hq
  unfold fsSetReadonly at h
  split at h
  all_goals cases h
  all_goals rw [fsLookup_fsSet, if_neg (fun hh => hne hh.symm)]
  all_goals exact hq

theorem fsSetReadonly_new {fs fs' : Fs} {p : FsPath}
    (h : fsSetReadonly fs p = some fs') :
    ∀ q n, fsLookup fs' q = some n → fsLookup fs q = some n ∨ q = p := by
  intro q n hq
  unfold fsSetReadonly at h
  by_cases hpq : q = p
  · exact Or.inr hpq
  · split at h
    all_goals cases h
    all_goals rw [fsLookup_fsSet, if_neg (fun hh => hpq hh.symm)] at hq
    all_goals exact Or.inl hq

theorem fsCopy_pres {fs fs' : Fs} {src dst : FsPath}
    (h : fsCopy fs src dst = some fs') :
    ∀ q n, q ≠ dst → fsLookup fs q = some n → fsLookup fs' q = some n := by
  intro q n hne hq
  unfold fsCopy at h
  split at h
  · split at h
    · cases h
    · split at h
      · cases h
      · cases h
      · cases h
        rw [fsLookup_fsSet, if_neg (fun hh => hne hh.symm)]
        exact hq
      · split at h
        · cases h
          rw [fsLookup_fsSet, if_neg (fun hh => hne hh.symm)]
          exact hq
        · cases h
  · cases h

theorem fsCopy_new {fs fs' : Fs} {src dst : FsPath}
    (h : fsCopy fs src dst = some fs') :
    ∀ q n, fsLookup fs' q = some n → fsLookup fs q = some n ∨ q = dst := by
  intro q n hq
  by_cases hqd : q = dst
  · exact Or.inr hqd
  · unfold fsCopy at h
    split at h
    · split at h
      · cases h
      · split at h
        · cases h
        · cases h
        · cases h
          rw [fsLookup_fsSet, if_neg (fun hh => hqd hh.symm)] at hq
          exact Or.inl hq
        · split at h
          · cases h
            rw [fsLookup_fsSet, if_neg (fun hh => hqd hh.symm)] at hq
            exact Or.inl hq
          · cases h
    · cases h

theorem fsCopy_src {fs fs' : Fs} {src dst : FsPath}
    (h : fsCopy fs src dst = some fs') :
    ∃ bytes ro, fsLookup fs src = some (.file bytes ro) := by
  unfold fsCopy at h
  split at h
  · next bytes ro heq => exact ⟨bytes, ro, heq⟩
  · cases h

theorem fsCopy_fails {fs : Fs} {src dst : FsPath}
    (hsrc : ∀ bytes ro, fsLookup fs src ≠ some (.file bytes ro)) :
    fsCopy fs src dst = none := by
  unfold fsCopy
  split
  · next bytes ro heq => exact absurd heq (hsrc bytes ro)
  · rfl

theorem fsRemoveTree_lookup (fs : Fs) (r q : FsPath) :
    fsLookup (fsRemoveTree fs r) q =
      if FsPath.startsWith q r.clean = true then none else fsLookup fs q := by
  induction fs with
  | nil => simp [fsRemoveTree, fsLookup]
  | cons kv fs ih =>
    rw [fsRemoveTree, List.filter_cons]
    by_cases hkv : FsPath.startsWith kv.1 r.clean = true
    · have hcond : (!FsPath.startsWith kv.1 r.clean) = false := by rw [hkv]; rfl
      rw [hcond, if_neg (by simp)]
      rw [fsRemoveTree] at ih
      rw [ih]
      by_cases hq : FsPath.startsWith q r.clean = true
      · rw [if_pos hq, if_pos hq]
      · rw [if_neg hq, if_neg hq]
        have hne : kv.1 ≠ q := fun hh => hq (hh ▸ hkv)
        show fsLookup fs q = fsLookup (kv :: fs) q
        rw [show fsLookup (kv :: fs) q = if kv.1 = q then some kv.2 else fsLookup fs q from rfl]
        rw [if_neg hne]
    · have hcond : (!FsPath.startsWith kv.1 r.clean) = true := by
        cases hb : FsPath.startsWith kv.1 r.clean
        · rfl
        · exact absurd hb hkv
      rw [hcond, if_pos rfl]
      rw [fsRemoveTree] at ih
      by_cases hq : FsPath.startsWith q r.clean = true
      · rw [if_pos hq]
        have hne : kv.1 ≠ q := fun hh => hkv (hh.symm ▸ hq)
        show (if kv.1 = q then some kv.2 else fsLookup (List.filter _ fs) q) = none
        rw [if_neg hne, ih, if_pos hq]
      · rw [if_neg hq]
        show (if kv.1 = q then some kv.2 else fsLookup (List.filter _ fs) q) =
          fsLookup (kv :: fs) q
        rw [show fsLookup (kv :: fs) q = if kv.1 = q then some kv.2 else fsLookup fs q from rfl]
        by_cases hkq : kv.1 = q
        · rw [if_pos hkq, if_pos hkq]
        · rw [if_neg hkq, if_neg hkq, ih, if_neg hq]

theorem fsCopy_point {fs fs' : Fs} {src dst : FsPath}
    (h : fsCopy fs src dst = some fs') :
    ∃ bytes ro, fsLookup fs' dst = some (.file bytes ro) := by
  unfold fsCopy at h
  split at h
  · next bytes ro heq =>
    split at h
    · cases h
    · split at h
      · cases h
      · cases h
      · cases h
        exact ⟨bytes, ro, by rw [fsLookup_fsSet, if_pos rfl]⟩
      · split at h
        · cases h
          exact ⟨bytes, ro, by rw [fsLookup_fsSet, if_pos rfl]⟩
        · cases h
  · cases h

theorem fsEvol_refl (fs : Fs) : FsEvol fs fs :=
  ⟨fun _ h => h, fun _ ro h => ⟨ro, h⟩⟩

theorem fsEvol_trans {a b c : Fs} (h1 : FsEvol a b) (h2 : FsEvol b c) : FsEvol a c :=
  ⟨fun q hq => h2.1 q (h1.1 q hq),
    fun q ro hd => by
      rcases h1.2 q ro hd with ⟨ro1, hd1⟩
      exact h2.2 q ro1 hd1⟩

theorem fsEvol_of_pres {fs fs' : Fs}
    (h : ∀ q n, fsLookup fs q = some n → fsLookup fs' q = some n) : FsEvol fs fs' := by
  constructor
  · intro q hq
    rcases Option.isSome_iff_exists.mp hq with ⟨n, hn⟩
    rw [h q n hn]
    rfl
  · intro q ro hd
    exact ⟨ro, h q _ hd⟩

theorem fsIsDir_mono {fs fs' : Fs} (hev : FsEvol fs fs') {p : FsPath}
    (h : fsIsDir fs p = true) : fsIsDir fs' p = true := by
  unfold fsIsDir at h ⊢
  rcases Bool.or_eq_true _ _ |>.mp h with he | hm
  · rw [he]
    rfl
  · cases hl : fsLookup fs p with
    | none => rw [hl] at hm; cases hm
    | some n =>
      cases n with
      | dir ro =>
        rcases hev.2 p ro hl with ⟨ro', hd'⟩
        rw [hd']
        simp
      | file c ro => rw [hl] at hm; cases hm

theorem fsWalkAcc_mono {fs fs' : Fs} (hev : FsEvol fs fs') (ab : Bool) :
    ∀ (cs acc a : List String), fsWalkAcc fs ab acc cs = some a →
      fsWalkAcc fs' ab acc cs = some a := by
  intro cs
  induction cs with
  | nil =>
    intro acc a h
    exact h
  | cons c rest ih =>
    intro acc a h
    unfold fsWalkAcc at h ⊢
    split at h
    · next hd => rw [if_pos (fsIsDir_mono hev hd)]; exact ih _ a h
    · cases h

theorem fsExists_mono {fs fs' : Fs} (hev : FsEvol fs fs') {p : FsPath}
    (h : fsExists fs p = true) : fsExists fs' p = true := by
  unfold fsExists at h ⊢
  split at h
  · cases h
  · next hne =>
    rw [if_neg hne]
    cases hw : fsWalkAcc fs p.absolute [] p.comps with
    | none => rw [hw] at h; cases h
    | some acc =>
      rw [hw] at h
      rw [fsWalkAcc_mono hev p.absolute p.comps [] acc hw]
      have h2 : (acc.isEmpty ||
          (fsLookup fs ⟨p.absolute, acc.reverse⟩).isSome) = true := h
      show (acc.isEmpty || (fsLookup fs' ⟨p.absolute, acc.reverse⟩).isSome) = true
      rcases Bool.or_eq_true _ _ |>.mp h2 with he | hsome
      · rw [he]
        rfl
      · rw [hev.1 _ hsome]
        simp

theorem rawGo_pres (ab : Bool) :
    ∀ (cs : List String) (fs : Fs) (acc : List String) (fs' : Fs),
    fsCreateDirAllRawGo ab fs acc cs = some fs' →
    ∀ q n, fsLookup fs q = some n → fsLookup fs' q = some n := by
  intro cs
  induction cs with
  | nil =>
    intro fs acc fs' h q n hq
    simp only [fsCreateDirAllRawGo, Option.some.injEq] at h
    exact h ▸ hq
  | cons c rest ih =>
    intro fs acc fs' h q n hq
    simp only [fsCreateDirAllRawGo] at h
    split at h
    · exact ih fs _ fs' h q n hq
    · cases hl : fsLookup fs ⟨ab, (cleanStep ab acc c).reverse⟩ with
      | none =>
        rw [hl] at h
        refine ih _ _ fs' h q n ?_
        rw [fsLookup_fsSet]
        split
        · next heq => rw [← heq] at hq; rw [hq] at hl; exact absurd hl (by simp)
        · exact hq
      | some node =>
        rw [hl] at h
        cases node with
        | dir ro => exact ih fs _ fs' h q n hq
        | file content ro => exact absurd h (by simp)

theorem rawGo_vals (ab : Bool) :
    ∀ (cs : List String) (fs : Fs) (acc : List String) (fs' : Fs),
    fsCreateDirAllRawGo ab fs acc cs = some fs' →
    ∀ q n, fsLookup fs' q = some n → fsLookup fs q = some n ∨ n = .dir false := by
  intro cs
  induction cs with
  | nil =>
    intro fs acc fs' h q n hq
    simp only [fsCreateDirAllRawGo, Option.some.injEq] at h
    exact Or.inl (h ▸ hq)
  | cons c rest ih =>
    intro fs acc fs' h q n hq
    simp only [fsCreateDirAllRawGo] at h
    split at h
    · exact ih fs _ fs' h q n hq
    · cases hl : fsLookup fs ⟨ab, (cleanStep ab acc c).reverse⟩ with
      | none =>
        rw [hl] at h
        rcases ih _ _ fs' h q n hq with hold | hdir
        · rw [fsLookup_fsSet] at hold
          split at hold
          · exact Or.inr (by simpa using hold.symm)
          · exact Or.inl hold
        · exact Or.inr hdir
      | some node =>
        rw [hl] at h
        cases node with
        | dir ro => exact ih fs _ fs' h q n hq
        | file content ro => exact absurd h (by simp)

theorem rawGo_alldirs (ab : Bool) :
    ∀ (cs : List String) (fs : Fs) (acc : List String) (fs' : Fs),
    fsCreateDirAllRawGo ab fs acc cs = some fs' →
    rawAllDirs fs' ab acc cs = true := by
  intro cs
  induction cs with
  | nil =>
    intro fs acc fs' h
    rfl
  | cons c rest ih =>
    intro fs acc fs' h
    simp only [fsCreateDirAllRawGo] at h
    simp only [rawAllDirs, Bool.and_eq_true]
    split at h
    · next he =>
      refine ⟨?_, ih fs _ fs' h⟩
      unfold fsIsDir
      rw [Bool.or_eq_true]
      exact Or.inl (by simpa using he)
    · next he =>
      cases hl : fsLookup fs ⟨ab, (cleanStep ab acc c).reverse⟩ with
      | none =>
        rw [hl] at h
        have hd : fsLookup fs' ⟨ab, (cleanStep ab acc c).reverse⟩ = some (.dir false) :=
          rawGo_pres ab rest _ _ fs' h _ _ (by rw [fsLookup_fsSet, if_pos rfl])
        refine ⟨?_, ih _ _ fs' h⟩
        unfold fsIsDir
        rw [hd, Bool.or_eq_true]
        exact Or.inr rfl
      | some node =>
        rw [hl] at h
        cases node with
        | dir ro =>
          have hd : fsLookup fs' ⟨ab, (cleanStep ab acc c).reverse⟩ = some (.dir ro) :=
            rawGo_pres ab rest _ _ fs' h _ _ hl
          refine ⟨?_, ih fs _ fs' h⟩
          unfold fsIsDir
          rw [hd, Bool.or_eq_true]
          exact Or.inr rfl
        | file content ro => exact absurd h (by simp)

theorem rawAllDirs_mono {fs fs' : Fs} (hev : FsEvol fs fs') (ab : Bool) :
    ∀ (cs acc : List String), rawAllDirs fs ab acc cs = true →
      rawAllDirs fs' ab acc cs = true := by
  intro cs
  induction cs with
  | nil =>
    intro acc h
    rfl
  | cons c rest ih =>
    intro acc h
    simp only [rawAllDirs, Bool.and_eq_true] at h ⊢
    exact ⟨fsIsDir_mono hev h.1, ih _ h.2⟩

theorem walk_of_alldirs (fs : Fs) (ab : Bool) :
    ∀ (cs acc : List String), rawAllDirs fs ab acc cs = true →
    fsIsDir fs ⟨ab, acc.reverse⟩ = true →
    fsWalkAcc fs ab acc cs = some (List.foldl (cleanStep ab) acc cs) := by
  intro cs
  induction cs with
  | nil =>
    intro acc h hd
    rfl
  | cons c rest ih =>
    intro acc h hd
    simp only [rawAllDirs, Bool.and_eq_true] at h
    unfold fsWalkAcc
    rw [if_pos hd]
    exact ih _ h.2 h.1

theorem alldirs_last (fs : Fs) (ab : Bool) :
    ∀ (cs acc : List String), rawAllDirs fs ab acc cs = true →
    fsIsDir fs ⟨ab, acc.reverse⟩ = true →
    fsIsDir fs ⟨ab, (List.foldl (cleanStep ab) acc cs).reverse⟩ = true := by
  intro cs
  induction cs with
  | nil =>
    intro acc h hd
    exact hd
  | cons c rest ih =>
    intro acc h hd
    simp only [rawAllDirs, Bool.and_eq_true] at h
    exact ih _ h.2 h.1

theorem walk_concat (fs : Fs) (ab : Bool) (c : String) :
    ∀ (cs acc a : List String), fsWalkAcc fs ab acc cs = some a →
    fsIsDir fs ⟨ab, a.reverse⟩ = true →
    fsWalkAcc fs ab acc (cs ++ [c]) = some (cleanStep ab a c) := by
  intro cs
  induction cs with
  | nil =>
    intro acc a h hd
    simp only [fsWalkAcc, Option.some.injEq] at h
    subst h
    simp only [List.nil_append]
    unfold fsWalkAcc
    rw [if_pos hd]
    rfl
  | cons d rest ih =>
    intro acc a h hd
    unfold fsWalkAcc at h
    split at h
    · next hdir =>
      simp only [List.cons_append]
      unfold fsWalkAcc
      rw [if_pos hdir]
      exact ih _ a h hd
    · cases h

theorem rawGo_second (ab : Bool) :
    ∀ (cs : List String) (fs : Fs) (acc : List String) (fs2 fsX : Fs),
    fsCreateDirAllRawGo ab fs acc cs = some fs2 → FsEvol fs2 fsX →
    fsCreateDirAllRawGo ab fsX acc cs = some fsX := by
  intro cs
  induction cs with
  | nil =>
    intro fs acc fs2 fsX h hev
    rfl
  | cons c rest ih =>
    intro fs acc fs2 fsX h hev
    simp only [fsCreateDirAllRawGo] at h ⊢
    split at h
    · next he => rw [if_pos he]; exact ih fs _ fs2 fsX h hev
    · next he =>
      rw [if_neg he]
      cases hl : fsLookup fs ⟨ab, (cleanStep ab acc c).reverse⟩ with
      | none =>
        rw [hl] at h
        have hd2 : fsLookup fs2 ⟨ab, (cleanStep ab acc c).reverse⟩ = some (.dir false) :=
          rawGo_pres ab rest _ _ fs2 h _ _ (by rw [fsLookup_fsSet, if_pos rfl])
        rcases hev.2 _ _ hd2 with ⟨ro', hdX⟩
        rw [hdX]
        exact ih _ _ fs2 fsX h hev
      | some node =>
        rw [hl] at h
        cases node with
        | dir ro =>
          have hd2 : fsLookup fs2 ⟨ab, (cleanStep ab acc c).reverse⟩ = some (.dir ro) :=
            rawGo_pres ab rest _ _ fs2 h _ _ hl
          rcases hev.2 _ _ hd2 with ⟨ro', hdX⟩
          rw [hdX]
          exact ih fs _ fs2 fsX h hev
        | file content ro => exact absurd h (by simp)

theorem fsCreateFile_notdir {fs fs' : Fs} {p : FsPath}
    (h : fsCreateFile fs p = some fs') :
    ∀ ro, fsLookup fs p ≠ some (.dir ro) := by
  intro ro hd
  unfold fsCreateFile at h
  rw [hd] at h
  split at h
  · cases h
  · split at h
    · cases h
    · cases h

theorem fsCreateFile_evol {fs fs' : Fs} {p : FsPath}
    (h : fsCreateFile fs p = some fs') : FsEvol fs fs' := by
  constructor
  · intro q hq
    by_cases hqp : q = p
    · subst hqp
      rw [fsCreateFile_point h]
      rfl
    · rcases Option.isSome_iff_exists.mp hq with ⟨n, hn⟩
      rw [fsCreateFile_pres h q n hqp hn]
      rfl
  · intro q ro hd
    by_cases hqp : q = p
    · subst hqp
      exact absurd hd (fsCreateFile_notdir h ro)
    · exact ⟨ro, fsCreateFile_pres h q _ hqp hd⟩

theorem fsWrite_notdir {fs fs' : Fs} {p : FsPath} {bytes : List Nat}
    (h : fsWrite fs p bytes = some fs') :
    ∀ ro, fsLookup fs p ≠ some (.dir ro) := by
  intro ro hd
  unfold fsWrite at h
  rw [hd] at h
  cases h

theorem fsWrite_evol {fs fs' : Fs} {p : FsPath} {bytes : List Nat}
    (h : fsWrite fs p bytes = some fs') : FsEvol fs fs' := by
  constructor
  · intro q hq
    by_cases hqp : q = p
    · subst hqp
      rw [fsWrite_point h]
      rfl
    · rcases Option.isSome_iff_exists.mp hq with ⟨n, hn⟩
      rw [fsWrite_pres h q n hqp hn]
      rfl
  · intro q ro hd
    by_cases hqp : q = p
    · subst hqp
      exact absurd hd (fsWrite_notdir h ro)
    · exact ⟨ro, fsWrite_pres h q _ hqp hd⟩

theorem fsSetReadonly_evol {fs fs' : Fs} {p : FsPath}
    (h : fsSetReadonly fs p = some fs') : FsEvol fs fs' := by
  unfold fsSetReadonly at h
  split at h
  · next ro0 hl =>
    cases h
    constructor
    · intro q hq
      rw [fsLookup_fsSet]
      split
      · rfl
      · exact hq
    · intro q ro hd
      rw [fsLookup_fsSet]
      split
      · exact ⟨true, rfl⟩
      · exact ⟨ro, hd⟩
  · next c0 ro0 hl =>
    cases h
    constructor
    · intro q hq
      rw [fsLookup_fsSet]
      split
      · rfl
      · exact hq
    · intro q ro hd
      rw [fsLookup_fsSet]
      split
      · next heq => rw [heq] at hl; rw [hl] at hd; cases hd
      · exact ⟨ro, hd⟩
  · cases h

theorem fsCreateFile_guards {fs fs' : Fs} {p : FsPath}
    (h : fsCreateFile fs p = some fs') : p.comps ≠ [] ∧ p.comps ≠ ["."] := by
  unfold fsCreateFile at h
  split at h
  · cases h
  · next h1 =>
    split at h
    · cases h
    · next h2 =>
      refine ⟨?_, h2⟩
      intro hc
      apply h1
      rw [hc]
      rfl

theorem clean_of_foldl_ne (p : FsPath)
    (h : List.foldl (cleanStep p.absolute) [] p.comps ≠ []) :
    p.clean = ⟨p.absolute, (List.foldl (cleanStep p.absolute) [] p.comps).reverse⟩ := by
  have hc : cleanComps p.absolute p.comps =
      (List.foldl (cleanStep p.absolute) [] p.comps).reverse := rfl
  have hcond : ¬(((List.foldl (cleanStep p.absolute) [] p.comps).reverse.isEmpty &&
      !p.absolute) = true) := by
    intro hcon
    rw [Bool.and_eq_true] at hcon
    have h1 := hcon.1
    rw [List.isEmpty_iff, List.reverse_eq_nil_iff] at h1
    exact h h1
  unfold FsPath.clean
  rw [hc, if_neg hcond]

theorem clean_of_foldl_eq (p : FsPath)
    (h : List.foldl (cleanStep p.absolute) [] p.comps = []) :
    p.clean.comps = [] ∨ p.clean.comps = ["."] := by
  have hc : cleanComps p.absolute p.comps = [] := by
    unfold cleanComps
    rw [h]
    rfl
  unfold FsPath.clean
  rw [hc]
  cases hab : p.absolute with
  | true => left; rfl
  | false => right; rfl

/-- After a successful raw `create_dir_all` of the parent of `raw`, every
intermediate stop of `raw` is a directory, so a `stat` of `raw` succeeds —
`Path::exists` is true — as soon as the resolved final location holds an
object; this persists along any evolution of the filesystem. -/
theorem fsExists_after_raw {fs fsA fsX : Fs} {raw : FsPath}
    (hgo : fsCreateDirAllRaw fs raw.parent = some fsA)
    (hev : FsEvol fsA fsX)
    (hne : raw.comps ≠ [])
    (hlast : (fsLookup fsX ⟨raw.absolute,
      (List.foldl (cleanStep raw.absolute) [] raw.comps).reverse⟩).isSome = true) :
    fsExists fsX raw = true := by
  rcases List.eq_nil_or_concat raw.comps with hc | ⟨cs, l, hco⟩
  · exact absurd hc hne
  · rw [List.concat_eq_append] at hco
    have hpar : raw.parent.comps = cs := by
      show raw.comps.dropLast = cs
      rw [hco]
      simp
    have hgo2 : fsCreateDirAllRawGo raw.absolute fs [] cs = some fsA := by
      rw [← hpar]
      exact hgo
    have had : rawAllDirs fsA raw.absolute [] cs = true :=
      rawGo_alldirs raw.absolute cs fs [] fsA hgo2
    have hadX : rawAllDirs fsX raw.absolute [] cs = true :=
      rawAllDirs_mono hev raw.absolute cs [] had
    have hd0 : fsIsDir fsX ⟨raw.absolute, ([] : List String).reverse⟩ = true := rfl
    have hw : fsWalkAcc fsX raw.absolute [] cs =
        some (List.foldl (cleanStep raw.absolute) [] cs) :=
      walk_of_alldirs fsX raw.absolute cs [] hadX hd0
    have hdl : fsIsDir fsX ⟨raw.absolute,
        (List.foldl (cleanStep raw.absolute) [] cs).reverse⟩ = true :=
      alldirs_last fsX raw.absolute cs [] hadX hd0
    have hw2 : fsWalkAcc fsX raw.absolute [] (cs ++ [l]) =
        some (cleanStep raw.absolute (List.foldl (cleanStep raw.absolute) [] cs) l) :=
      walk_concat fsX raw.absolute l cs [] _ hw hdl
    have hf : List.foldl (cleanStep raw.absolute) [] (cs ++ [l]) =
        cleanStep raw.absolute (List.foldl (cleanStep raw.absolute) [] cs) l := by
      rw [List.foldl_append]
      rfl
    have hemp : ¬(raw.isEmptyPath = true) := by
      unfold FsPath.isEmptyPath
      rw [hco]
      simp
    unfold fsExists
    rw [if_neg hemp]
    have hw3 : fsWalkAcc fsX raw.absolute [] raw.comps =
        some (cleanStep raw.absolute (List.foldl (cleanStep raw.absolute) [] cs) l) := by
      rw [hco]
      exact hw2
    rw [hw3]
    have hl2 : (fsLookup fsX ⟨raw.absolute,
        (cleanStep raw.absolute (List.foldl (cleanStep raw.absolute) [] cs) l).reverse⟩).isSome
        = true := by
      rw [← hf, ← hco]
      exact hlast
    dsimp only
    rw [hl2, Bool.or_true]

namespace TempDirBuilder

theorem kindStep_pres {root : FsPath} {fs : Fs} {e : Entry} {r : Option BuildError} {fs' : Fs}
    (h : kindStep root fs e = (r, fs')) :
    ∀ q n, q ≠ resolvedPath root e.path → fsLookup fs q = some n → fsLookup fs' q = some n := by
  intro q n hne hq
  obtain ⟨epath, ekind⟩ := e
  cases ekind with
  | Directory =>
    simp only [kindStep] at h
    split at h
    · cases h; exact hq
    · next fs2 heq => cases h; exact fsCreateDir_pres heq q n hne hq
  | EmptyFile =>
    simp only [kindStep] at h
    split at h
    · cases h; exact hq
    · next fs2 heq => cases h; exact fsCreateFile_pres heq q n hne hq
  | TextFile text =>
    simp only [kindStep] at h
    split at h
    · cases h; exact hq
    · next fs2 heq =>
      split at h
      · cases h; exact fsCreateFile_pres heq q n hne hq
      · next fs3 heq2 =>
        cases h
        exact fsWrite_pres heq2 q n hne (fsCreateFile_pres heq q n hne hq)
  | BinaryFile bytes =>
    simp only [kindStep] at h
    split at h
    · cases h; exact hq
    · next fs2 heq =>
      split at h
      · cases h; exact fsCreateFile_pres heq q n hne hq
      · next fs3 heq2 =>
        cases h
        exact fsWrite_pres heq2 q n hne (fsCreateFile_pres heq q n hne hq)
  | FileToCopy source =>
    simp only [kindStep] at h
    split at h
    · cases h; exact hq
    · next fs2 heq => cases h; exact fsCopy_pres heq q n hne hq

theorem kindStep_new {root : FsPath} {fs : Fs} {e : Entry} {r : Option BuildError} {fs' : Fs}
    (h : kindStep root fs e = (r, fs')) :
    ∀ q n, fsLookup fs' q = some n →
      fsLookup fs q = some n ∨ q = resolvedPath root e.path := by
  intro q n hq
  obtain ⟨epath, ekind⟩ := e
  cases ekind with
  | Directory =>
    simp only [kindStep] at h
    split at h
    · cases h; exact Or.inl hq
    · next fs2 heq => cases h; exact fsCreateDir_new heq q n hq
  | EmptyFile =>
    simp only [kindStep] at h
    split at h
    · cases h; exact Or.inl hq
    · next fs2 heq => cases h; exact fsCreateFile_new heq q n hq
  | TextFile text =>
    simp only [kindStep] at h
    split at h
    · cases h; exact Or.inl hq
    · next fs2 heq =>
      split at h
      · cases h; exact fsCreateFile_new heq q n hq
      · next fs3 heq2 =>
        cases h
        rcases fsWrite_new heq2 q n hq with h2 | h2
        · exact fsCreateFile_new heq q n h2
        · exact Or.inr h2
  | BinaryFile bytes =>
    simp only [kindStep] at h
    split at h
    · cases h; exact Or.inl hq
    · next fs2 heq =>
      split at h
      · cases h; exact fsCreateFile_new heq q n hq
      · next fs3 heq2 =>
        cases h
        rcases fsWrite_new heq2 q n hq with h2 | h2
        · exact fsCreateFile_new heq q n h2
        · exact Or.inr h2
  | FileToCopy source =>
    simp only [kindStep] at h
    split at h
    · cases h; exact Or.inl hq
    · next fs2 heq => cases h; exact fsCopy_new heq q n hq

theorem kindStep_sets {root : FsPath} {fs : Fs} {e : Entry} {fs' : Fs}
    (h : kindStep root fs e = (none, fs')) :
    fsLookup fs' (resolvedPath root e.path) ≠ none := by
  obtain ⟨epath, ekind⟩ := e
  cases ekind with
  | Directory =>
    simp only [kindStep] at h
    split at h
    · cases h
    · next fs2 heq => cases h; rw [fsCreateDir_point heq]; simp
  | EmptyFile =>
    simp only [kindStep] at h
    split at h
    · cases h
    · next fs2 heq => cases h; rw [fsCreateFile_point heq]; simp
  | TextFile text =>
    simp only [kindStep] at h
    split at h
    · cases h
    · next fs2 heq =>
      split at h
      · cases h
      · next fs3 heq2 => cases h; rw [fsWrite_point heq2]; simp
  | BinaryFile bytes =>
    simp only [kindStep] at h
    split at h
    · cases h
    · next fs2 heq =>
      split at h
      · cases h
      · next fs3 heq2 => cases h; rw [fsWrite_point heq2]; simp
  | FileToCopy source =>
    simp only [kindStep] at h
    split at h
    · cases h
    · next fs2 heq =>
      cases h
      rcases fsCopy_point heq with ⟨bytes, ro, hl⟩
      rw [hl]; simp

theorem kindStep_text {root : FsPath} {fs : Fs} {e : Entry} {fs' : Fs} {s : String}
    (h : kindStep root fs e = (none, fs')) (hk : e.kind = .TextFile s) :
    fsLookup fs' (resolvedPath root e.path) = some (.file (strBytes s) false) := by
  obtain ⟨epath, ekind⟩ := e
  cases hk
  simp only [kindStep] at h
  split at h
  · cases h
  · next fs2 heq =>
    split at h
    · cases h
    · next fs3 heq2 => cases h; exact fsWrite_point heq2

theorem kindStep_binary {root : FsPath} {fs : Fs} {e : Entry} {fs' : Fs} {bs : List Nat}
    (h : kindStep root fs e = (none, fs')) (hk : e.kind = .BinaryFile bs) :
    fsLookup fs' (resolvedPath root e.path) = some (.file bs false) := by
  obtain ⟨epath, ekind⟩ := e
  cases hk
  simp only [kindStep] at h
  split at h
  · cases h
  · next fs2 heq =>
    split at h
    · cases h
    · next fs3 heq2 => cases h; exact fsWrite_point heq2

theorem kindStep_no_dup {root : FsPath} {fs : Fs} {e : Entry} {err : BuildError} {fs' : Fs}
    (h : kindStep root fs e = (some err, fs')) :
    ∀ p, err ≠ .DuplicateEntry p := by
  intro p
  obtain ⟨epath, ekind⟩ := e
  cases ekind <;> simp only [kindStep] at h <;>
    (repeat' split at h) <;> (cases h) <;> simp

theorem kindStep_err_copy {root : FsPath} {fs : Fs} {e : Entry} {p : FsPath} {fs' : Fs}
    (h : kindStep root fs e = (some (.FailedToCopyFile p), fs')) :
    e.kind = .FileToCopy p := by
  obtain ⟨epath, ekind⟩ := e
  cases ekind <;> simp only [kindStep] at h <;>
    (repeat' split at h) <;> (cases h) <;> simp_all

theorem notSome_eq_none {o : Option FsNode} (h : ¬o.isSome = true) : o = none := by
  cases o
  · rfl
  · exact absurd rfl h

theorem entry_pres {root : FsPath} {fs : Fs} {idx : Nat} {e : Entry}
    {r : Option BuildError} {fs' : Fs} (h : buildEntry root fs idx e = (r, fs')) :
    ∀ q n, fsLookup fs q = some n → fsLookup fs' q = some n := by
  intro q n hq
  unfold buildEntry at h
  split at h
  · cases h; exact hq
  · split at h
    · cases h; exact hq
    · split at h
      · cases h; exact hq
      · next hdup =>
        split at h
        · cases h; exact hq
        · next fs1 heq =>
          have hnone := notSome_eq_none hdup
          have hne : q ≠ resolvedPath root e.path := fun hh => by
            rw [hh, hnone] at hq; cases hq
          exact kindStep_pres h q n hne (fsCreateDirAll_pres heq q n hq)

theorem entry_new {root : FsPath} {fs : Fs} {idx : Nat} {e : Entry}
    {r : Option BuildError} {fs' : Fs} (h : buildEntry root fs idx e = (r, fs')) :
    ∀ q n, fsLookup fs' q = some n →
      fsLookup fs q = some n ∨
        (q.absolute = (resolvedPath root e.path).absolute ∧
          q.comps <+: (resolvedPath root e.path).comps) := by
  intro q n hq
  unfold buildEntry at h
  split at h
  · cases h; exact Or.inl hq
  · split at h
    · cases h; exact Or.inl hq
    · split at h
      · cases h; exact Or.inl hq
      · split at h
        · cases h; exact Or.inl hq
        · next fs1 heq =>
          rcases kindStep_new h q n hq with h2 | h2
          · rcases fsCreateDirAll_new heq q n h2 with h3 | ⟨_, hab, hpre, _⟩
            · exact Or.inl h3
            · exact Or.inr ⟨hab, hpre.trans (dropLastPre _)⟩
          · exact Or.inr ⟨by rw [h2], by rw [h2]⟩

theorem entry_checks {root : FsPath} {fs : Fs} {idx : Nat} {e : Entry} {fs' : Fs}
    (h : buildEntry root fs idx e = (none, fs')) :
    e.path.isEmptyPath = false ∧
      FsPath.startsWith (resolvedPath root e.path) root = true ∧
      fsLookup fs (resolvedPath root e.path) = none := by
  unfold buildEntry at h
  split at h
  · simp at h
  · next hemp =>
    split at h
    · simp at h
    · next hsw =>
      split at h
      · simp at h
      · next hdup =>
        refine ⟨by simpa using hemp, by simpa using hsw, notSome_eq_none hdup⟩

theorem entry_sets {root : FsPath} {fs : Fs} {idx : Nat} {e : Entry} {fs' : Fs}
    (h : buildEntry root fs idx e = (none, fs')) :
    fsLookup fs' (resolvedPath root e.path) ≠ none := by
  unfold buildEntry at h
  split at h
  · simp at h
  · split at h
    · simp at h
    · split at h
      · simp at h
      · split at h
        · simp at h
        · exact kindStep_sets h

theorem entry_text {root : FsPath} {fs : Fs} {idx : Nat} {e : Entry} {fs' : Fs} {s : String}
    (h : buildEntry root fs idx e = (none, fs')) (hk : e.kind = .TextFile s) :
    fsLookup fs' (resolvedPath root e.path) = some (.file (strBytes s) false) := by
  unfold buildEntry at h
  split at h
  · simp at h
  · split at h
    · simp at h
    · split at h
      · simp at h
      · split at h
        · simp at h
        · exact kindStep_text h hk

theorem entry_binary {root : FsPath} {fs : Fs} {idx : Nat} {e : Entry} {fs' : Fs}
    {bs : List Nat}
    (h : buildEntry root fs idx e = (none, fs')) (hk : e.kind = .BinaryFile bs) :
    fsLookup fs' (resolvedPath root e.path) = some (.file bs false) := by
  unfold buildEntry at h
  split at h
  · simp at h
  · split at h
    · simp at h
    · split at h
      · simp at h
      · split at h
        · simp at h
        · exact kindStep_binary h hk

theorem entry_err_dup {root : FsPath} {fs : Fs} {idx : Nat} {e : Entry} {p : FsPath} {fs' : Fs}
    (h : buildEntry root fs idx e = (some (.DuplicateEntry p), fs')) :
    FsPath.startsWith (resolvedPath root e.path) root = true ∧
      (fsLookup fs (resolvedPath root e.path)).isSome = true ∧
      p = resolvedPath root e.path := by
  unfold buildEntry at h
  split at h
  · simp at h
  · next hemp =>
    split at h
    · simp at h
    · next hsw =>
      split at h
      · next hdup =>
        have hp : p = resolvedPath root e.path := by
          have := congrArg Prod.fst h
          simpa using this.symm
        exact ⟨by simpa using hsw, hdup, hp⟩
      · split at h
        · simp at h
        · exact absurd rfl (kindStep_no_dup h p)

theorem entry_err_copy {root : FsPath} {fs : Fs} {idx : Nat} {e : Entry} {p : FsPath} {fs' : Fs}
    (h : buildEntry root fs idx e = (some (.FailedToCopyFile p), fs')) :
    e.kind = .FileToCopy p := by
  unfold buildEntry at h
  split at h
  · simp at h
  · split at h
    · simp at h
    · split at h
      · simp at h
      · split at h
        · simp at h
        · exact kindStep_err_copy h

theorem entry_copy_fails {root : FsPath} {fs : Fs} {idx : Nat} {e : Entry}
    {src : FsPath} {fs1 : Fs}
    (hk : e.kind = .FileToCopy src)
    (hsrc : ∀ b ro, fsLookup fs src ≠ some (.file b ro))
    (hne : e.path.isEmptyPath = false)
    (hsw : FsPath.startsWith (resolvedPath root e.path) root = true)
    (hnodup : fsLookup fs (resolvedPath root e.path) = none)
    (hdir : fsCreateDirAll fs (resolvedPath root e.path).parent = some fs1) :
    buildEntry root fs idx e = (some (.FailedToCopyFile src), fs1) := by
  have hsrc1 : ∀ b ro, fsLookup fs1 src ≠ some (.file b ro) := by
    intro b ro hl
    rcases fsCreateDirAll_new hdir src _ hl with hold | ⟨hn, _⟩
    · exact hsrc b ro hold
    · cases hn
  unfold buildEntry
  rw [if_neg (by simp [hne]), if_neg (by simp [hsw]), if_neg (by simp [hnodup]), hdir]
  obtain ⟨epath, ekind⟩ := e
  cases hk
  simp only [kindStep]
  rw [fsCopy_fails hsrc1]

theorem entries_pres {root : FsPath} :
    ∀ (es : List Entry) (fs : Fs) (idx : Nat) (r : Option BuildError) (fs' : Fs),
    buildEntries root fs idx es = (r, fs') →
    ∀ q n, fsLookup fs q = some n → fsLookup fs' q = some n := by
  intro es
  induction es with
  | nil =>
    intro fs idx r fs' h q n hq
    simp only [buildEntries] at h
    cases h
    exact hq
  | cons e rest ih =>
    intro fs idx r fs' h q n hq
    simp only [buildEntries] at h
    split at h
    · next err fs1 heq =>
      cases h
      exact entry_pres heq q n hq
    · next fs1 heq =>
      exact ih fs1 (idx + 1) r fs' h q n (entry_pres heq q n hq)

theorem entries_new {root : FsPath} :
    ∀ (es : List Entry) (fs : Fs) (idx : Nat) (r : Option BuildError) (fs' : Fs),
    buildEntries root fs idx es = (r, fs') →
    ∀ q n, fsLookup fs' q = some n →
      fsLookup fs q = some n ∨
        ∃ e ∈ es, q.absolute = (resolvedPath root e.path).absolute ∧
          q.comps <+: (resolvedPath root e.path).comps := by
  intro es
  induction es with
  | nil =>
    intro fs idx r fs' h q n hq
    simp only [buildEntries] at h
    cases h
    exact Or.inl hq
  | cons e rest ih =>
    intro fs idx r fs' h q n hq
    simp only [buildEntries] at h
    split at h
    · next err fs1 heq =>
      cases h
      rcases entry_new heq q n hq with hold | hnew
      · exact Or.inl hold
      · exact Or.inr ⟨e, List.mem_cons_self e rest, hnew⟩
    · next fs1 heq =>
      rcases ih fs1 (idx + 1) r fs' h q n hq with hold | ⟨e', he', hnew⟩
      · rcases entry_new heq q n hold with hold2 | hnew2
        · exact Or.inl hold2
        · exact Or.inr ⟨e, List.mem_cons_self e rest, hnew2⟩
      · exact Or.inr ⟨e', List.mem_cons_of_mem e he', hnew⟩

theorem entries_ok_checks {root : FsPath} :
    ∀ (es : List Entry) (fs : Fs) (idx : Nat) (fs' : Fs),
    buildEntries root fs idx es = (none, fs') →
    ∀ e ∈ es, e.path.isEmptyPath = false ∧
      FsPath.startsWith (resolvedPath root e.path) root = true := by
  intro es
  induction es with
  | nil =>
    intro fs idx fs' h e he
    cases he
  | cons e0 rest ih =>
    intro fs idx fs' h e he
    simp only [buildEntries] at h
    split at h
    · simp at h
    · next fs1 heq =>
      rcases List.mem_cons.mp he with rfl | he'
      · exact ⟨(entry_checks heq).1, (entry_checks heq).2.1⟩
      · exact ih fs1 (idx + 1) fs' h e he'

theorem entries_ok_sets {root : FsPath} :
    ∀ (es : List Entry) (fs : Fs) (idx : Nat) (fs' : Fs),
    buildEntries root fs idx es = (none, fs') →
    ∀ e ∈ es, fsLookup fs' (resolvedPath root e.path) ≠ none := by
  intro es
  induction es with
  | nil =>
    intro fs idx fs' h e he
    cases he
  | cons e0 rest ih =>
    intro fs idx fs' h e he
    simp only [buildEntries] at h
    split at h
    · simp at h
    · next fs1 heq =>
      rcases List.mem_cons.mp he with rfl | he'
      · intro hnone
        rcases Option.ne_none_iff_exists'.mp (entry_sets heq) with ⟨n, hn⟩
        rw [entries_pres rest fs1 (idx + 1) none fs' h _ n hn] at hnone
        cases hnone
      · exact ih fs1 (idx + 1) fs' h e he'

theorem entries_ok_text {root : FsPath} :
    ∀ (es : List Entry) (fs : Fs) (idx : Nat) (fs' : Fs),
    buildEntries root fs idx es = (none, fs') →
    ∀ e ∈ es, ∀ s, e.kind = .TextFile s →
      fsLookup fs' (resolvedPath root e.path) = some (.file (strBytes s) false) := by
  intro es
  induction es with
  | nil =>
    intro fs idx fs' h e he
    cases he
  | cons e0 rest ih =>
    intro fs idx fs' h e he s hk
    simp only [buildEntries] at h
    split at h
    · simp at h
    · next fs1 heq =>
      rcases List.mem_cons.mp he with rfl | he'
      · exact entries_pres rest fs1 (idx + 1) none fs' h _ _ (entry_text heq hk)
      · exact ih fs1 (idx + 1) fs' h e he' s hk

theorem entries_ok_binary {root : FsPath} :
    ∀ (es : List Entry) (fs : Fs) (idx : Nat) (fs' : Fs),
    buildEntries root fs idx es = (none, fs') →
    ∀ e ∈ es, ∀ bs, e.kind = .BinaryFile bs →
      fsLookup fs' (resolvedPath root e.path) = some (.file bs false) := by
  intro es
  induction es with
  | nil =>
    intro fs idx fs' h e he
    cases he
  | cons e0 rest ih =>
    intro fs idx fs' h e he bs hk
    simp only [buildEntries] at h
    split at h
    · simp at h
    · next fs1 heq =>
      rcases List.mem_cons.mp he with rfl | he'
      · exact entries_pres rest fs1 (idx + 1) none fs' h _ _ (entry_binary heq hk)
      · exact ih fs1 (idx + 1) fs' h e he' bs hk

theorem entries_fail_decomp {root : FsPath} :
    ∀ (es : List Entry) (fs : Fs) (idx : Nat) (err : BuildError) (fs' : Fs),
    buildEntries root fs idx es = (some err, fs') →
    ∃ k, ∃ hk : k < es.length, ∃ fsk,
      buildEntries root fs idx (es.take k) = (none, fsk) ∧
      buildEntry root fsk (idx + k) (es.get ⟨k, hk⟩) = (some err, fs') := by
  intro es
  induction es with
  | nil =>
    intro fs idx err fs' h
    simp only [buildEntries] at h
    cases h
  | cons e rest ih =>
    intro fs idx err fs' h
    simp only [buildEntries] at h
    split at h
    · next err0 fs1 heq =>
      rw [h] at heq
      refine ⟨0, by simp, fs, by simp [buildEntries], ?_⟩
      rw [Nat.add_zero]
      exact heq
    · next fs1 heq =>
      rcases ih fs1 (idx + 1) err fs' h with ⟨k, hk, fsk, htake, hget⟩
      refine ⟨k + 1, by simpa using Nat.succ_lt_succ hk, fsk, ?_, ?_⟩
      · simp only [List.take_succ_cons, buildEntries]
        rw [heq]
        exact htake
      · have harith : idx + (k + 1) = (idx + 1) + k := by omega
        rw [harith]
        simpa using hget

theorem entries_err_copy {root : FsPath} :
    ∀ (es : List Entry) (fs : Fs) (idx : Nat) (p : FsPath) (fs' : Fs),
    buildEntries root fs idx es = (some (.FailedToCopyFile p), fs') →
    ∃ e ∈ es, e.kind = .FileToCopy p := by
  intro es
  induction es with
  | nil =>
    intro fs idx p fs' h
    simp only [buildEntries] at h
    cases h
  | cons e rest ih =>
    intro fs idx p fs' h
    simp only [buildEntries] at h
    split at h
    · next err0 fs1 heq =>
      rw [h] at heq
      exact ⟨e, List.mem_cons_self e rest, entry_err_copy heq⟩
    · next fs1 heq =>
      rcases ih fs1 (idx + 1) p fs' h with ⟨e', he', hk⟩
      exact ⟨e', List.mem_cons_of_mem e he', hk⟩

theorem entries_no_dup (root : FsPath) :
    ∀ (es : List Entry) (fs : Fs) (idx : Nat) (D : FsPath → Prop),
    (∀ q n, fsLookup fs q = some n → D q) →
    (∀ e ∈ es, FsPath.startsWith (resolvedPath root e.path) root = true →
      ¬ D (resolvedPath root e.path)) →
    es.Pairwise (fun a b =>
      ¬((resolvedPath root b.path).absolute = (resolvedPath root a.path).absolute ∧
        (resolvedPath root b.path).comps <+: (resolvedPath root a.path).comps)) →
    ∀ p fs', buildEntries root fs idx es ≠ (some (.DuplicateEntry p), fs') := by
  intro es
  induction es with
  | nil =>
    intro fs idx D hcov hfresh hpw p fs' h
    simp only [buildEntries] at h
    cases h
  | cons e rest ih =>
    intro fs idx D hcov hfresh hpw p fs' h
    simp only [buildEntries] at h
    split at h
    · next err0 fs1 heq =>
      rw [h] at heq
      rcases entry_err_dup heq with ⟨hsw, hdup, hp⟩
      rcases Option.isSome_iff_exists.mp hdup with ⟨n, hn⟩
      exact hfresh e (List.mem_cons_self e rest) hsw (hcov _ n hn)
    · next fs1 heq =>
      have hpw' := List.pairwise_cons.mp hpw
      refine ih fs1 (idx + 1)
        (fun q => D q ∨ (q.absolute = (resolvedPath root e.path).absolute ∧
          q.comps <+: (resolvedPath root e.path).comps)) ?_ ?_ hpw'.2 p fs' h
      · intro q n hq
        rcases entry_new heq q n hq with hold | hnew
        · exact Or.inl (hcov q n hold)
        · exact Or.inr hnew
      · intro e' he' hsw' hd'
        rcases hd' with hd | hd
        · exact hfresh e' (List.mem_cons_of_mem e he') hsw' hd
        · exact hpw'.1 e' he' hd

theorem stepRoot_pres {root : FsPath} {fs : Fs} {r : Option BuildError} {fs1 : Fs}
    (h : stepRoot root fs = (r, fs1)) :
    ∀ q n, fsLookup fs q = some n → fsLookup fs1 q = some n := by
  intro q n hq
  unfold stepRoot at h
  split at h
  · cases h; exact hq
  · split at h
    · cases h; exact hq
    · next fs2 heq => cases h; exact fsCreateDirAll_pres heq q n hq

theorem stepRoot_new {root : FsPath} {fs : Fs} {r : Option BuildError} {fs1 : Fs}
    (h : stepRoot root fs = (r, fs1)) :
    ∀ q n, fsLookup fs1 q = some n →
      fsLookup fs q = some n ∨
        (n = .dir false ∧ q.absolute = root.absolute ∧ q.comps <+: root.comps ∧
          q.comps ≠ []) := by
  intro q n hq
  unfold stepRoot at h
  split at h
  · cases h; exact Or.inl hq
  · split at h
    · cases h; exact Or.inl hq
    · next fs2 heq => cases h; exact fsCreateDirAll_new heq q n hq

theorem stepRoot_ok_root {root : FsPath} {fs : Fs} {fs1 : Fs}
    (h : stepRoot root fs = (none, fs1)) (hne : root.comps ≠ []) :
    fsLookup fs1 root ≠ none := by
  unfold stepRoot at h
  split at h
  · next hsome =>
    cases h
    intro hnone
    rw [hnone] at hsome
    cases hsome
  · split at h
    · simp at h
    · next fs2 heq => cases h; exact fsCreateDirAll_mk heq hne

theorem stepRoot_err {root : FsPath} {fs : Fs} {err : BuildError} {fs1 : Fs}
    (h : stepRoot root fs = (some err, fs1)) :
    err = .FailedToCreateRootDirectory root ∧ fs1 = fs := by
  unfold stepRoot at h
  split at h
  · simp at h
  · split at h
    · rw [Prod.mk.injEq] at h
      exact ⟨(Option.some.injEq _ _ ▸ h.1).symm, h.2.symm⟩
    · simp at h

theorem build_pres (b : TempDirectoryBuilder) (fs : Fs) :
    ∀ q n, fsLookup fs q = some n → fsLookup (b.build fs).fs q = some n := by
  intro q n hq
  rcases hs : stepRoot b.root fs with ⟨r1, fs1⟩
  unfold TempDirectoryBuilder.build
  rw [hs]
  cases r1 with
  | some err => exact stepRoot_pres hs q n hq
  | none =>
    rcases he : buildEntries b.root fs1 0 b.entries with ⟨r2, fs2⟩
    dsimp only
    rw [he]
    cases r2 with
    | some err =>
      exact entries_pres b.entries fs1 0 (some err) fs2 he q n (stepRoot_pres hs q n hq)
    | none =>
      exact entries_pres b.entries fs1 0 none fs2 he q n (stepRoot_pres hs q n hq)

theorem build_ok_entries {b : TempDirectoryBuilder} {fs : Fs} {t : TempDirectory}
    (h : (b.build fs).result = .ok t) :
    ∃ fs1, stepRoot b.root fs = (none, fs1) ∧
      buildEntries b.root fs1 0 b.entries = (none, (b.build fs).fs) ∧
      t = ⟨b.root, b.delete_on_drop⟩ := by
  rcases hs : stepRoot b.root fs with ⟨r1, fs1⟩
  unfold TempDirectoryBuilder.build at h ⊢
  rw [hs] at h ⊢
  cases r1 with
  | some err => simp at h
  | none =>
    rcases he : buildEntries b.root fs1 0 b.entries with ⟨r2, fs2⟩
    dsimp only at h ⊢
    rw [he] at h ⊢
    cases r2 with
    | some err => simp at h
    | none =>
      refine ⟨fs1, rfl, he, ?_⟩
      simpa using h.symm

theorem build_err_entries {b : TempDirectoryBuilder} {fs : Fs} {err : BuildError}
    (h : (b.build fs).result = .error err)
    (hroot : ∀ p, err ≠ .FailedToCreateRootDirectory p) :
    ∃ fs1, stepRoot b.root fs = (none, fs1) ∧
      buildEntries b.root fs1 0 b.entries = (some err, (b.build fs).fs) := by
  rcases hs : stepRoot b.root fs with ⟨r1, fs1⟩
  unfold TempDirectoryBuilder.build at h ⊢
  rw [hs] at h ⊢
  cases r1 with
  | some err0 =>
    have he0 : err0 = err := by simpa using h
    subst he0
    exact absurd (stepRoot_err hs).1 (hroot b.root)
  | none =>
    rcases he : buildEntries b.root fs1 0 b.entries with ⟨r2, fs2⟩
    dsimp only at h ⊢
    rw [he] at h ⊢
    cases r2 with
    | some err0 =>
      have he0 : err0 = err := by simpa using h
      subst he0
      exact ⟨fs1, rfl, he⟩
    | none => simp at h

end TempDirBuilder

theorem fsSetReadonly_point {fs fs' : Fs} {p : FsPath}
    (h : fsSetReadonly fs p = some fs') :
    fsLookup fs' p ≠ none := by
  unfold fsSetReadonly at h
  split at h
  · cases h
    rw [fsLookup_fsSet, if_pos rfl]
    simp
  · cases h
    rw [fsLookup_fsSet, if_pos rfl]
    simp
  · cases h

theorem fsCreateDirAll_nilcomps (fs : Fs) (ab : Bool) :
    fsCreateDirAll fs ⟨ab, []⟩ = some fs := rfl

namespace TreeFs

theorem settingsStep_dest {root : FsPath} {fs : Fs} {e : Entry} {r : Option Unit} {fs' : Fs}
    (h : settingsStep root fs e = (r, fs'))
    (hd : fsLookup fs (resolvedPath root e.path) ≠ none) :
    fsLookup fs' (resolvedPath root e.path) ≠ none := by
  unfold settingsStep at h
  split at h
  · cases h; exact hd
  · split at h
    · cases h; exact hd
    · split at h
      · split at h
        · cases h; exact hd
        · next fs2 heq => cases h; exact fsSetReadonly_point heq
      · cases h; exact hd

theorem settingsStep_evol {root : FsPath} {fs : Fs} {e : Entry} {r : Option Unit} {fs' : Fs}
    (h : settingsStep root fs e = (r, fs')) : FsEvol fs fs' := by
  unfold settingsStep at h
  split at h
  · cases h; exact fsEvol_refl _
  · split at h
    · cases h; exact fsEvol_refl _
    · split at h
      · split at h
        · cases h; exact fsEvol_refl _
        · next fs2 heq => cases h; exact fsSetReadonly_evol heq
      · cases h; exact fsEvol_refl _

theorem kindStepT_evol {root : FsPath} {fs : Fs} {e : Entry} {r : Option Unit} {fs' : Fs}
    (h : kindStepT root fs e = (r, fs')) : FsEvol fs fs' := by
  obtain ⟨epath, ekind, esettings⟩ := e
  cases ekind with
  | Directory =>
    simp only [kindStepT] at h
    split at h
    · cases h; exact fsEvol_refl _
    · next fs1 heq => cases h; exact fsEvol_of_pres (rawGo_pres _ _ fs [] _ heq)
  | EmptyFile =>
    simp only [kindStepT] at h
    split at h
    · cases h; exact fsEvol_refl _
    · next fs1 heq =>
      split at h
      · cases h; exact fsEvol_of_pres (rawGo_pres _ _ fs [] _ heq)
      · next fs2 heq2 =>
        cases h
        exact fsEvol_trans (fsEvol_of_pres (rawGo_pres _ _ fs [] _ heq))
          (fsCreateFile_evol heq2)
  | TextFile content =>
    simp only [kindStepT] at h
    split at h
    · cases h; exact fsEvol_refl _
    · next fs1 heq =>
      split at h
      · cases h; exact fsEvol_of_pres (rawGo_pres _ _ fs [] _ heq)
      · next fs2 heq2 =>
        split at h
        · cases h
          exact fsEvol_trans (fsEvol_of_pres (rawGo_pres _ _ fs [] _ heq))
            (fsCreateFile_evol heq2)
        · next fs3 heq3 =>
          cases h
          exact fsEvol_trans (fsEvol_of_pres (rawGo_pres _ _ fs [] _ heq))
            (fsEvol_trans (fsCreateFile_evol heq2) (fsWrite_evol heq3))

theorem entryT_evol {root : FsPath} {ov : Bool} {fs : Fs} {e : Entry} {r : Option Unit}
    {fs' : Fs} (h : createEntry root ov fs e = (r, fs')) : FsEvol fs fs' := by
  unfold createEntry at h
  split at h
  · cases h; exact fsEvol_refl _
  · split at h
    · next u fs1 heq => cases h; exact kindStepT_evol heq
    · next fs1 heq => exact fsEvol_trans (kindStepT_evol heq) (settingsStep_evol h)

theorem entriesT_evol {root : FsPath} {ov : Bool} :
    ∀ (es : List Entry) (fs : Fs) (r : Option Unit) (fs' : Fs),
    createEntries root ov fs es = (r, fs') → FsEvol fs fs' := by
  intro es
  induction es with
  | nil =>
    intro fs r fs' h
    simp only [createEntries] at h
    cases h
    exact fsEvol_refl _
  | cons e rest ih =>
    intro fs r fs' h
    simp only [createEntries] at h
    split at h
    · next err fs1 heq => cases h; exact entryT_evol heq
    · next fs1 heq => exact fsEvol_trans (entryT_evol heq) (ih fs1 r fs' h)

theorem entryT_skip {root : FsPath} {fs : Fs} {e : Entry}
    (hex : fsExists fs (FsPath.join root e.path) = true) :
    createEntry root false fs e = (none, fs) := by
  unfold createEntry
  rw [if_pos (by simp [hex])]

/-- Re-running an entry that succeeded with `override_file = false` on any
later state of the filesystem is a no-op: either the first run's raw
destination now stats successfully (everything the first run created is
still there) and the entry is skipped, or — for a `Directory` entry whose
stat still fails — the raw `create_dir_all` finds all its stops already
directories and changes nothing. -/
theorem entryT_second_run {root : FsPath} {fs fs1 fsX : Fs} {e : Entry}
    (h : createEntry root false fs e = (none, fs1))
    (hev : FsEvol fs1 fsX) :
    createEntry root false fsX e = (none, fsX) := by
  unfold createEntry at h ⊢
  split at h
  · next hex =>
    cases h
    have hexX : fsExists fsX (FsPath.join root e.path) = true :=
      fsExists_mono hev (by simpa using hex)
    rw [if_pos (by simp [hexX])]
  · next hnex =>
    by_cases hex2 : fsExists fsX (FsPath.join root e.path) = true
    · rw [if_pos (by simp [hex2])]
    · rw [if_neg (by simp [hex2])]
      split at h
      · next u fsb heq => cases h
      · next fsB heq =>
        obtain ⟨epath, ekind, esettings⟩ := e
        cases ekind with
        | Directory =>
          simp only [kindStepT] at heq ⊢
          split at heq
          · cases heq
          · next fsD heq2 =>
            cases heq
            have hfs1 : fs1 = fsB := by
              cases esettings with
              | none => simpa [settingsStep] using congrArg Prod.snd h.symm
              | some s => simpa [settingsStep] using congrArg Prod.snd h.symm
            rw [hfs1] at hev
            have hsecond : fsCreateDirAllRaw fsX (FsPath.join root epath) = some fsX :=
              rawGo_second _ _ fs [] fsB fsX heq2 hev
            rw [hsecond]
            cases esettings with
            | none => rfl
            | some s => rfl
        | EmptyFile =>
          exfalso
          simp only [kindStepT] at heq
          split at heq
          · cases heq
          · next fsA heq2 =>
            split at heq
            · cases heq
            · next fsB0 heq3 =>
              cases heq
              have hevA : FsEvol fsA fsX :=
                fsEvol_trans (fsCreateFile_evol heq3)
                  (fsEvol_trans (settingsStep_evol h) hev)
              have hg := fsCreateFile_guards heq3
              by_cases hA : List.foldl (cleanStep (FsPath.join root epath).absolute) []
                  (FsPath.join root epath).comps = []
              · rcases clean_of_foldl_eq _ hA with hc | hc
                · exact hg.1 hc
                · exact hg.2 hc
              · have hne : (FsPath.join root epath).comps ≠ [] := by
                  intro hc
                  apply hA
                  rw [hc]
                  rfl
                have hresolved := clean_of_foldl_ne _ hA
                have hd1 : fsLookup fs1 (resolvedPath root epath) ≠ none :=
                  settingsStep_dest h (by rw [fsCreateFile_point heq3]; simp)
                have hX : (fsLookup fsX (resolvedPath root epath)).isSome = true :=
                  hev.1 _ (Option.isSome_iff_exists.mpr (Option.ne_none_iff_exists'.mp hd1))
                have hlast : (fsLookup fsX ⟨(FsPath.join root epath).absolute,
                    (List.foldl (cleanStep (FsPath.join root epath).absolute) []
                      (FsPath.join root epath).comps).reverse⟩).isSome = true := by
                  rw [← hresolved]
                  exact hX
                exact hex2 (fsExists_after_raw heq2 hevA hne hlast)
        | TextFile content =>
          exfalso
          simp only [kindStepT] at heq
          split at heq
          · cases heq
          · next fsA heq2 =>
            split at heq
            · cases heq
            · next fsB0 heq3 =>
              split at heq
              · cases heq
              · next fsB1 heq4 =>
                cases heq
                have hevA : FsEvol fsA fsX :=
                  fsEvol_trans (fsCreateFile_evol heq3)
                    (fsEvol_trans (fsWrite_evol heq4)
                      (fsEvol_trans (settingsStep_evol h) hev))
                have hg := fsCreateFile_guards heq3
                by_cases hA : List.foldl (cleanStep (FsPath.join root epath).absolute) []
                    (FsPath.join root epath).comps = []
                · rcases clean_of_foldl_eq _ hA with hc | hc
                  · exact hg.1 hc
                  · exact hg.2 hc
                · have hne : (FsPath.join root epath).comps ≠ [] := by
                    intro hc
                    apply hA
                    rw [hc]
                    rfl
                  have hresolved := clean_of_foldl_ne _ hA
                  have hd1 : fsLookup fs1 (resolvedPath root epath) ≠ none :=
                    settingsStep_dest h (by rw [fsWrite_point heq4]; simp)
                  have hX : (fsLookup fsX (resolvedPath root epath)).isSome = true :=
                    hev.1 _ (Option.isSome_iff_exists.mpr (Option.ne_none_iff_exists'.mp hd1))
                  have hlast : (fsLookup fsX ⟨(FsPath.join root epath).absolute,
                      (List.foldl (cleanStep (FsPath.join root epath).absolute) []
                        (FsPath.join root epath).comps).reverse⟩).isSome = true := by
                    rw [← hresolved]
                    exact hX
                  exact hex2 (fsExists_after_raw heq2 hevA hne hlast)

theorem entriesT_second_run {root : FsPath} :
    ∀ (es : List Entry) (fs fs1 fsX : Fs),
    createEntries root false fs es = (none, fs1) → FsEvol fs1 fsX →
    createEntries root false fsX es = (none, fsX) := by
  intro es
  induction es with
  | nil =>
    intro fs fs1 fsX h hev
    rfl
  | cons e rest ih =>
    intro fs fs1 fsX h hev
    simp only [createEntries] at h ⊢
    split at h
    · next err fsa heq => cases h
    · next fsa heq =>
      have heva : FsEvol fsa fsX :=
        fsEvol_trans (entriesT_evol rest fsa none fs1 h) hev
      rw [entryT_second_run heq heva]
      exact ih fsa fs1 fsX h hev

theorem entriesT_allskip {root : FsPath} :
    ∀ (es : List Entry) (fs : Fs),
    (∀ e ∈ es, fsExists fs (FsPath.join root e.path) = true) →
    createEntries root false fs es = (none, fs) := by
  intro es
  induction es with
  | nil =>
    intro fs _
    rfl
  | cons e rest ih =>
    intro fs H
    have hskip := entryT_skip (H e (List.mem_cons_self e rest))
    simp only [createEntries, hskip]
    exact ih fs (fun e' he' => H e' (List.mem_cons_of_mem e he'))

theorem stepRootT_pres {root : FsPath} {fs : Fs} {r : Option Unit} {fs1 : Fs}
    (h : stepRootT root fs = (r, fs1)) :
    ∀ q n, fsLookup fs q = some n → fsLookup fs1 q = some n := by
  intro q n hq
  unfold stepRootT at h
  split at h
  · cases h; exact hq
  · split at h
    · cases h; exact hq
    · next fs2 heq => cases h; exact fsCreateDirAll_pres heq q n hq

theorem stepRootT_second {root : FsPath} {fs fs1 fsX : Fs}
    (h : stepRootT root fs = (none, fs1))
    (hmono : ∀ q, (fsLookup fs1 q).isSome = true → (fsLookup fsX q).isSome = true) :
    stepRootT root fsX = (none, fsX) := by
  unfold stepRootT at h ⊢
  split at h
  · next hsome =>
    cases h
    rw [if_pos (hmono _ hsome)]
  · next hsome =>
    split at h
    · simp at h
    · next fs2 heq =>
      cases h
      by_cases hc : root.comps = []
      · by_cases hX : (fsLookup fsX root).isSome = true
        · rw [if_pos hX]
        · rw [if_neg hX]
          have hr : root = ⟨root.absolute, []⟩ := by cases root; simp_all
          rw [hr, fsCreateDirAll_nilcomps]
      · have hsome2 : (fsLookup fs1 root).isSome = true :=
          Option.isSome_iff_exists.mpr
            (Option.ne_none_iff_exists'.mp (fsCreateDirAll_mk heq hc))
        rw [if_pos (hmono _ hsome2)]

theorem createT_allskip {b : TreeBuilder} {fs : Fs}
    (hov : b.override_file = false)
    (hroot : (fsLookup fs b.root).isSome = true)
    (hall : ∀ e ∈ b.entries, fsExists fs (FsPath.join b.root e.path) = true) :
    b.create fs = ⟨.ok ⟨b.root, b.drop⟩, fs⟩ := by
  have hs : stepRootT b.root fs = (none, fs) := by
    unfold stepRootT
    rw [if_pos hroot]
  unfold TreeBuilder.create
  rw [hs]
  dsimp only
  rw [hov, entriesT_allskip b.entries fs hall]

theorem createT_ok_entries {b : TreeBuilder} {fs : Fs} {t : Tree}
    (h : (b.create fs).result = .ok t) :
    ∃ fs1, stepRootT b.root fs = (none, fs1) ∧
      createEntries b.root b.override_file fs1 b.entries = (none, (b.create fs).fs) ∧
      t = ⟨b.root, b.drop⟩ := by
  rcases hs : stepRootT b.root fs with ⟨r1, fs1⟩
  unfold TreeBuilder.create at h ⊢
  rw [hs] at h ⊢
  cases r1 with
  | some err => simp at h
  | none =>
    rcases he : createEntries b.root b.override_file fs1 b.entries with ⟨r2, fs2⟩
    dsimp only at h ⊢
    rw [he] at h ⊢
    cases r2 with
    | some err => simp at h
    | none =>
      refine ⟨fs1, rfl, he, ?_⟩
      simpa using h.symm

theorem fsSetReadonly_file {fs fs' : Fs} {p : FsPath} {c : List Nat} {ro : Bool}
    (h : fsSetReadonly fs p = some fs') (hl : fsLookup fs p = some (.file c ro)) :
    fsLookup fs' p = some (.file c true) := by
  unfold fsSetReadonly at h
  rw [hl] at h
  cases h
  rw [fsLookup_fsSet, if_pos rfl]

theorem entryT_readonly_file {root : FsPath} {ov : Bool} {fs : Fs} {e : Entry} {fs' : Fs}
    {content : String} {s : Settings}
    (hk : e.kind = .TextFile content) (hs : e.settings = some s) (hro : s.readonly = true)
    (hfresh : fsExists fs (FsPath.join root e.path) = false)
    (h : createEntry root ov fs e = (none, fs')) :
    fsLookup fs' (resolvedPath root e.path) = some (.file (strBytes content) true) := by
  unfold createEntry at h
  split at h
  · next hcond =>
    rw [hfresh] at hcond
    simp at hcond
  · split at h
    · simp at h
    · next fs1 heq =>
      obtain ⟨epath, ekind, esettings⟩ := e
      cases hk
      cases hs
      simp only [kindStepT] at heq
      split at heq
      · cases heq
      · next fs2 heq2 =>
        split at heq
        · cases heq
        · next fs3 heq3 =>
          split at heq
          · cases heq
          · next fs4 heq4 =>
            cases heq
            have hw := fsWrite_point heq4
            simp only [settingsStep, hro, if_pos] at h
            split at h
            · simp at h
            · next fs5 heqr =>
              cases h
              exact fsSetReadonly_file heqr hw

theorem entryT_readonly_empty {root : FsPath} {ov : Bool} {fs : Fs} {e : Entry} {fs' : Fs}
    {s : Settings}
    (hk : e.kind = .EmptyFile) (hs : e.settings = some s) (hro : s.readonly = true)
    (hfresh : fsExists fs (FsPath.join root e.path) = false)
    (h : createEntry root ov fs e = (none, fs')) :
    fsLookup fs' (resolvedPath root e.path) = some (.file [] true) := by
  unfold createEntry at h
  split at h
  · next hcond =>
    rw [hfresh] at hcond
    simp at hcond
  · split at h
    · simp at h
    · next fs1 heq =>
      obtain ⟨epath, ekind, esettings⟩ := e
      cases hk
      cases hs
      simp only [kindStepT] at heq
      split at heq
      · cases heq
      · next fs2 heq2 =>
        split at heq
        · cases heq
        · next fs3 heq3 =>
          cases heq
          have hw := fsCreateFile_point heq3
          simp only [settingsStep, hro, if_pos] at h
          split at h
          · simp at h
          · next fs5 heqr =>
            cases h
            exact fsSetReadonly_file heqr hw

theorem entryT_dir_noro {root : FsPath} {ov : Bool} {fs : Fs} {e : Entry}
    {r : Option Unit} {fs' : Fs}
    (hk : e.kind = .Directory) (h : createEntry root ov fs e = (r, fs')) :
    ∀ q, fsLookup fs' q = fsLookup fs q ∨ fsLookup fs' q = some (.dir false) := by
  intro q
  unfold createEntry at h
  split at h
  · cases h
    exact Or.inl rfl
  · obtain ⟨epath, ekind, esettings⟩ := e
    cases hk
    split at h
    · next err fs1 heq =>
      cases h
      simp only [kindStepT] at heq
      split at heq
      · cases heq
        exact Or.inl rfl
      · cases heq
    · next fs1 heq =>
      simp only [kindStepT] at heq
      split at heq
      · cases heq
      · next fsd heq2 =>
        cases heq
        have hfs' : fs' = fs1 := by
          cases esettings with
          | none => simpa [settingsStep] using congrArg Prod.snd h.symm
          | some s => simpa [settingsStep] using congrArg Prod.snd h.symm
        subst hfs'
        cases hq : fsLookup fs' q with
        | none =>
          refine Or.inl ?_
          cases hq0 : fsLookup fs q with
          | none => rfl
          | some n =>
            rw [rawGo_pres _ _ fs [] fs' heq2 q n hq0] at hq
            cases hq
        | some n =>
          rcases rawGo_vals _ _ fs [] fs' heq2 q n hq with hold | hdir
          · exact Or.inl hold.symm
          · exact Or.inr (by rw [hdir])

/-- Re-running a whole successful non-override `create` is a no-op: the
root still exists, and the loop re-runs every entry as a no-op (skip, or a
vacuous raw `create_dir_all` for a `Directory` entry). -/
theorem createT_idem {b : TreeBuilder} {fs : Fs} {t : Tree}
    (hov : b.override_file = false) (h : (b.create fs).result = .ok t) :
    b.create ((b.create fs).fs) =
      ⟨.ok ⟨b.root, b.drop⟩, (b.create fs).fs⟩ := by
  obtain ⟨fs1, hs, he, ht⟩ := createT_ok_entries h
  rw [hov] at he
  have hev1 : FsEvol fs1 (b.create fs).fs :=
    entriesT_evol b.entries fs1 none _ he
  have hstep2 := stepRootT_second hs (fun q hq => hev1.1 q hq)
  have hents2 := entriesT_second_run b.entries fs1 (b.create fs).fs (b.create fs).fs he
    (fsEvol_refl _)
  set fsF := (b.create fs).fs with hF
  unfold TreeBuilder.create
  rw [hstep2]
  dsimp only
  rw [hov, hents2]

end TreeFs

theorem fspath_eq {p q : FsPath} (h1 : p.absolute = q.absolute)
    (h2 : p.comps = q.comps) : p = q := by
  cases p
  cases q
  simp_all

namespace TempDirBuilder

theorem entry_dup_hit {root : FsPath} {fs : Fs} {idx : Nat} {e : Entry}
    (hne : e.path.isEmptyPath = false)
    (hsw : FsPath.startsWith (resolvedPath root e.path) root = true)
    (hex : (fsLookup fs (resolvedPath root e.path)).isSome = true) :
    buildEntry root fs idx e = (some (.DuplicateEntry (resolvedPath root e.path)), fs) := by
  unfold buildEntry
  rw [if_neg (by simp [hne]), if_neg (by simp [hsw]), if_pos hex]

theorem stepRoot_second {root : FsPath} {fs fs1 fsX : Fs}
    (h : stepRoot root fs = (none, fs1))
    (hpres : ∀ q n, fsLookup fs1 q = some n → fsLookup fsX q = some n) :
    stepRoot root fsX = (none, fsX) := by
  unfold stepRoot at h ⊢
  split at h
  · next hsome =>
    cases h
    rcases Option.isSome_iff_exists.mp hsome with ⟨n, hn⟩
    rw [if_pos (Option.isSome_iff_exists.mpr ⟨n, hpres _ n hn⟩)]
  · next hsome =>
    split at h
    · simp at h
    · next fs2 heq =>
      cases h
      by_cases hc : root.comps = []
      · by_cases hX : (fsLookup fsX root).isSome = true
        · rw [if_pos hX]
        · rw [if_neg hX]
          have hr : root = ⟨root.absolute, []⟩ := by cases root; simp_all
          rw [hr, fsCreateDirAll_nilcomps]
      · rcases Option.ne_none_iff_exists'.mp (fsCreateDirAll_mk heq hc) with ⟨n, hn⟩
        rw [if_pos (Option.isSome_iff_exists.mpr ⟨n, hpres _ n hn⟩)]

theorem build_strict_second {b : TempDirectoryBuilder} {fs : Fs} {t : TempDirectory}
    {e : Entry} {rest : List Entry}
    (hent : b.entries = e :: rest) (h : (b.build fs).result = .ok t) :
    (b.build (b.build fs).fs).result =
      .error (.DuplicateEntry (resolvedPath b.root e.path)) := by
  obtain ⟨fs1, hs, he, ht⟩ := build_ok_entries h
  have hmem : e ∈ b.entries := by rw [hent]; exact List.mem_cons_self e rest
  have hchecks := entries_ok_checks b.entries fs1 0 _ he e hmem
  have hdest := entries_ok_sets b.entries fs1 0 _ he e hmem
  have hpres1 : ∀ q n, fsLookup fs1 q = some n → fsLookup (b.build fs).fs q = some n :=
    entries_pres b.entries fs1 0 none _ he
  have hstep2 := stepRoot_second hs hpres1
  have hex : (fsLookup (b.build fs).fs (resolvedPath b.root e.path)).isSome = true :=
    Option.isSome_iff_exists.mpr (Option.ne_none_iff_exists'.mp hdest)
  have hdup := @entry_dup_hit b.root (b.build fs).fs 0 e
    hchecks.1 hchecks.2 hex
  set fsF := (b.build fs).fs with hF
  unfold TempDirectoryBuilder.build
  rw [hstep2]
  dsimp only
  rw [hent]
  simp only [buildEntries]
  rw [hdup]

end TempDirBuilder

/-! ### Claim theorems -/

/-- C2: when a `Tree` (tolerant variant) or `TempDirectory` (strict variant)
goes out of scope, the `Drop` impl with the auto-delete flag set removes the
root and everything under it (any error of the underlying `remove_dir_all`
being discarded — `dropRun` is a total function of the filesystem, so the
drop can neither panic nor surface an error), while with the flag unset the
filesystem is left exactly intact. -/
theorem claim_C2 :
    (∀ (t : TreeFs.Tree) (fs : Fs) (q : FsPath), t.drop = true →
      FsPath.startsWith q t.root.clean = true → fsLookup (t.dropRun fs) q = none) ∧
    (∀ (t : TreeFs.Tree) (fs : Fs), t.drop = false → t.dropRun fs = fs) ∧
    (∀ (d : TempDirBuilder.TempDirectory) (fs : Fs) (q : FsPath),
      d.delete_on_drop = true →
      FsPath.startsWith q d.path.clean = true → fsLookup (d.dropRun fs) q = none) ∧
    (∀ (d : TempDirBuilder.TempDirectory) (fs : Fs), d.delete_on_drop = false →
      d.dropRun fs = fs) := by
  refine ⟨?_, ?_, ?_, ?_⟩
  · intro t fs q hd hq
    unfold TreeFs.Tree.dropRun
    rw [if_pos hd, fsRemoveTree_lookup, if_pos hq]
  · intro t fs hd
    unfold TreeFs.Tree.dropRun
    rw [if_neg (by simp [hd])]
  · intro d fs q hd hq
    unfold TempDirBuilder.TempDirectory.dropRun
    rw [if_pos hd, fsRemoveTree_lookup, if_pos hq]
  · intro d fs hd
    unfold TempDirBuilder.TempDirectory.dropRun
    rw [if_neg (by simp [hd])]

theorem claim_C2_witness :
    fsLookup
      (TreeFs.Tree.dropRun ⟨rootT, true⟩ [(⟨true, ["tmp", "r", "a"]⟩, .file [1] false)])
      ⟨true, ["tmp", "r", "a"]⟩ = none ∧
    TreeFs.Tree.dropRun ⟨rootT, false⟩ [(⟨true, ["tmp", "r", "a"]⟩, .file [1] false)] =
      [(⟨true, ["tmp", "r", "a"]⟩, .file [1] false)] ∧
    fsLookup (TempDirBuilder.TempDirectory.dropRun ⟨rootT, true⟩ [(rootT, .dir false)])
      rootT = none ∧
    TempDirBuilder.TempDirectory.dropRun ⟨rootT, false⟩ [] = [] :=
  ⟨claim_C2.1 _ _ _ rfl (by decide), claim_C2.2.1 _ _ rfl,
    claim_C2.2.2.1 _ _ _ rfl (by decide), claim_C2.2.2.2 _ _ rfl⟩

/-- C5: in the strict materializer, (i) everything already on disk survives
a `build` unchanged (no rollback, no overwriting), and (ii) whenever
`build` fails on an entry (any error other than root creation), the error
is the one produced by the first failing entry — all entries before it
materialized completely, nothing after it was processed — the root
directory still exists, and everything materialized up to the failure
survives into the final filesystem state unchanged.  The `Except` return
value carries no partial-success variant at all. -/
theorem claim_C5 :
    (∀ (b : TempDirBuilder.TempDirectoryBuilder) (fs : Fs) (q : FsPath) (n : FsNode),
      fsLookup fs q = some n → fsLookup (b.build fs).fs q = some n) ∧
    (∀ (b : TempDirBuilder.TempDirectoryBuilder) (fs : Fs)
      (err : TempDirBuilder.BuildError),
      (b.build fs).result = .error err →
      (∀ p, err ≠ .FailedToCreateRootDirectory p) →
      (b.root.comps ≠ [] → fsLookup (b.build fs).fs b.root ≠ none) ∧
      ∃ fs1 k, ∃ hk : k < b.entries.length, ∃ fsk,
        TempDirBuilder.stepRoot b.root fs = (none, fs1) ∧
        TempDirBuilder.buildEntries b.root fs1 0 (b.entries.take k) = (none, fsk) ∧
        TempDirBuilder.buildEntry b.root fsk k (b.entries.get ⟨k, hk⟩) =
          (some err, (b.build fs).fs) ∧
        (∀ q n, fsLookup fsk q = some n → fsLookup (b.build fs).fs q = some n)) := by
  constructor
  · intro b fs q n hq
    exact TempDirBuilder.build_pres b fs q n hq
  · intro b fs err h hroot
    obtain ⟨fs1, hs, he⟩ := TempDirBuilder.build_err_entries h hroot
    obtain ⟨k, hk, fsk, htake, hget⟩ :=
      TempDirBuilder.entries_fail_decomp b.entries fs1 0 err _ he
    rw [Nat.zero_add] at hget
    have hpresk : ∀ q n, fsLookup fsk q = some n → fsLookup (b.build fs).fs q = some n :=
      fun q n hq => TempDirBuilder.entry_pres hget q n hq
    constructor
    · intro hcne hnone
      rcases Option.ne_none_iff_exists'.mp (TempDirBuilder.stepRoot_ok_root hs hcne)
        with ⟨n, hn⟩
      have h1 := TempDirBuilder.entries_pres _ fs1 0 none fsk htake _ n hn
      rw [hpresk _ n h1] at hnone
      cases hnone
    · exact ⟨fs1, k, hk, fsk, hs, htake, hget, hpresk⟩

theorem claim_C5_witness :
    (rootT.comps ≠ [] → fsLookup (bC5.build []).fs bC5.root ≠ none) ∧
    ∃ fs1 k, ∃ hk : k < bC5.entries.length, ∃ fsk,
      TempDirBuilder.stepRoot bC5.root [] = (none, fs1) ∧
      TempDirBuilder.buildEntries bC5.root fs1 0 (bC5.entries.take k) = (none, fsk) ∧
      TempDirBuilder.buildEntry bC5.root fsk k (bC5.entries.get ⟨k, hk⟩) =
        (some (.FailedToCopyFile ⟨true, ["no", "such"]⟩), (bC5.build []).fs) ∧
      (∀ q n, fsLookup fsk q = some n → fsLookup (bC5.build []).fs q = some n) :=
  claim_C5.2 bC5 [] (.FailedToCopyFile ⟨true, ["no", "such"]⟩) (by decide)
    (fun p hcon => by cases hcon)

/-- C7: in the tolerant materializer, an entry's `readonly` setting is
applied strictly after the entry's content has been written — witnessed by
the fact that an entry whose raw destination does not stat (so the entry
is not skipped) that completes successfully ends with both the full
content and the read-only bit on the destination, in a model where
creating or writing a file over an existing read-only file fails — and a
`Directory` entry never has `readonly` applied at all, whatever its
settings: after such an entry every path is either untouched or a fresh
writable directory. -/
theorem claim_C7 :
    (∀ (root : FsPath) (ov : Bool) (fs : Fs) (e : TreeFs.Entry)
      (r : Option Unit) (fs' : Fs),
      e.kind = .Directory → TreeFs.createEntry root ov fs e = (r, fs') →
      ∀ q, fsLookup fs' q = fsLookup fs q ∨ fsLookup fs' q = some (.dir false)) ∧
    (∀ (root : FsPath) (ov : Bool) (fs : Fs) (e : TreeFs.Entry) (fs' : Fs)
      (content : String) (s : TreeFs.Settings),
      e.kind = .TextFile content → e.settings = some s → s.readonly = true →
      fsExists fs (FsPath.join root e.path) = false →
      TreeFs.createEntry root ov fs e = (none, fs') →
      fsLookup fs' (resolvedPath root e.path) =
        some (.file (strBytes content) true)) ∧
    (∀ (root : FsPath) (ov : Bool) (fs : Fs) (e : TreeFs.Entry) (fs' : Fs)
      (s : TreeFs.Settings),
      e.kind = .EmptyFile → e.settings = some s → s.readonly = true →
      fsExists fs (FsPath.join root e.path) = false →
      TreeFs.createEntry root ov fs e = (none, fs') →
      fsLookup fs' (resolvedPath root e.path) = some (.file [] true)) :=
  ⟨fun _ _ _ _ _ _ hk h => TreeFs.entryT_dir_noro hk h,
    fun _ _ _ _ _ _ _ hk hs hro hfresh h =>
      TreeFs.entryT_readonly_file hk hs hro hfresh h,
    fun _ _ _ _ _ _ hk hs hro hfresh h =>
      TreeFs.entryT_readonly_empty hk hs hro hfresh h⟩

theorem claim_C7_witness :
    (fsLookup (TreeFs.createEntry rootT false [] eC7d).2 ⟨true, ["tmp", "r", "d"]⟩ =
        fsLookup [] ⟨true, ["tmp", "r", "d"]⟩ ∨
      fsLookup (TreeFs.createEntry rootT false [] eC7d).2 ⟨true, ["tmp", "r", "d"]⟩ =
        some (.dir false)) ∧
    fsLookup (TreeFs.createEntry rootT false [] eC7f).2 (resolvedPath rootT eC7f.path) =
      some (.file (strBytes "hi") true) ∧
    fsLookup (TreeFs.createEntry rootT false [] eC7e).2 (resolvedPath rootT eC7e.path) =
      some (.file [] true) :=
  ⟨claim_C7.1 rootT false [] eC7d _ _ rfl rfl ⟨true, ["tmp", "r", "d"]⟩,
    claim_C7.2.1 rootT false [] eC7f _ "hi" ⟨true⟩ rfl rfl rfl (by decide) (by decide),
    claim_C7.2.2 rootT false [] eC7e _ ⟨true⟩ rfl rfl rfl (by decide) (by decide)⟩

/-- C9: in the strict materializer, a `FileToCopy` entry whose source is
not a readable file fails, once the entry is reached, with
`FailedToCopyFile` carrying the source path; and any `FailedToCopyFile`
error a whole build returns carries the source path of one of the
config's copy entries — never a destination. -/
theorem claim_C9 :
    (∀ (root : FsPath) (fs : Fs) (idx : Nat) (e : TempDirBuilder.Entry)
      (src : FsPath) (fs1 : Fs),
      e.kind = .FileToCopy src →
      (∀ b ro, fsLookup fs src ≠ some (.file b ro)) →
      e.path.isEmptyPath = false →
      FsPath.startsWith (resolvedPath root e.path) root = true →
      fsLookup fs (resolvedPath root e.path) = none →
      fsCreateDirAll fs (resolvedPath root e.path).parent = some fs1 →
      TempDirBuilder.buildEntry root fs idx e =
        (some (.FailedToCopyFile src), fs1)) ∧
    (∀ (b : TempDirBuilder.TempDirectoryBuilder) (fs : Fs) (p : FsPath),
      (b.build fs).result = .error (.FailedToCopyFile p) →
      ∃ e ∈ b.entries, e.kind = .FileToCopy p) := by
  constructor
  · intro root fs idx e src fs1 hk hsrc hne hsw hnodup hdir
    exact TempDirBuilder.entry_copy_fails hk hsrc hne hsw hnodup hdir
  · intro b fs p h
    obtain ⟨fs1, hs, he⟩ :=
      TempDirBuilder.build_err_entries h (fun p' hcon => by cases hcon)
    exact TempDirBuilder.entries_err_copy b.entries fs1 0 p _ he

theorem claim_C9_witness :
    TempDirBuilder.buildEntry rootT [] 0
      ⟨⟨false, ["foo"]⟩, .FileToCopy ⟨true, ["no", "such"]⟩⟩ =
      (some (.FailedToCopyFile ⟨true, ["no", "such"]⟩),
        [(⟨true, ["tmp", "r"]⟩, .dir false), (⟨true, ["tmp"]⟩, .dir false)]) :=
  claim_C9.1 rootT [] 0 ⟨⟨false, ["foo"]⟩, .FileToCopy ⟨true, ["no", "such"]⟩⟩
    ⟨true, ["no", "such"]⟩ _ rfl (fun b ro h => Option.noConfusion h) rfl
    (by decide) rfl (by decide)

/-- C10 (as amended): in the tolerant materializer with
`override_file = false`, an entry whose destination *stats successfully*
(`dest_path.exists()` on the raw, uncleaned join of root and entry path)
is skipped in its entirety — the entry step returns the filesystem
unchanged, so neither content nor settings (including `readonly`) are
applied — and a whole `create` whose root exists and all of whose entries'
raw destinations stat successfully returns `Ok` with the filesystem
exactly unchanged.  The guard stats the raw join, not the resolved
destination: when a `..` component crosses a directory that does not
exist yet the stat fails and the entry is *not* skipped, even if the
resolved destination is occupied — see the counterexample, where the
pre-existing object at the entry's resolved path is truncated and
overwritten with `override_file = false`. -/
theorem claim_C10 :
    (∀ (root : FsPath) (fs : Fs) (e : TreeFs.Entry),
      fsExists fs (FsPath.join root e.path) = true →
      TreeFs.createEntry root false fs e = (none, fs)) ∧
    (∀ (b : TreeFs.TreeBuilder) (fs : Fs), b.override_file = false →
      (fsLookup fs b.root).isSome = true →
      (∀ e ∈ b.entries, fsExists fs (FsPath.join b.root e.path) = true) →
      b.create fs = ⟨.ok ⟨b.root, b.drop⟩, fs⟩) :=
  ⟨fun _ _ _ hex => TreeFs.entryT_skip hex,
    fun _ _ hov hroot hall => TreeFs.createT_allskip hov hroot hall⟩

theorem claim_C10_witness :
    TreeFs.createEntry rootT false fsC10
      ⟨⟨false, ["f"]⟩, .TextFile "new", some ⟨true⟩⟩ = (none, fsC10) ∧
    bC10.create fsC10 = ⟨.ok ⟨rootT, true⟩, fsC10⟩ :=
  ⟨claim_C10.1 rootT fsC10
      ⟨⟨false, ["f"]⟩, .TextFile "new", some ⟨true⟩⟩ (by decide),
    claim_C10.2 bC10 fsC10 rfl (by decide) (by decide)⟩

/-- C10 is false as originally stated: the skip guard stats the raw join,
so the entry `a/../f` — resolving to the occupied `/tmp/r/f`, but crossing
the missing directory `/tmp/r/a` — fails its stat and is not skipped.
With `override_file = false` the create then makes `/tmp/r/a`, truncates
the pre-existing `/tmp/r/f`, writes the new content and applies the
read-only setting: the object that sat at the entry's resolved destination
does not survive. -/
theorem claim_C10_counterexample :
    fsLookup fsC10 (resolvedPath rootT ⟨false, ["a", "..", "f"]⟩) =
      some (.file [9] false) ∧
    fsExists fsC10 (FsPath.join rootT ⟨false, ["a", "..", "f"]⟩) = false ∧
    bC10c.override_file = false ∧
    (bC10c.create fsC10).result = .ok ⟨rootT, true⟩ ∧
    fsLookup (bC10c.create fsC10).fs (resolvedPath rootT ⟨false, ["a", "..", "f"]⟩) =
      some (.file (strBytes "new") true) ∧
    fsLookup (bC10c.create fsC10).fs ⟨true, ["tmp", "r", "a"]⟩ = some (.dir false) := by
  refine ⟨by decide, by decide, by decide, by decide, by decide, by decide⟩

/-- C1 (as amended): in the strict materializer, an entry with a nonempty
path whose join with the root, lexically cleaned, does not have the root as
a prefix makes the entry loop fail, the moment the entry is reached, with
`EntryOutsideDirectory` carrying that entry's (relative) path and with no
filesystem mutation at all for that entry; consequently a config containing
such an entry never materializes successfully.  (The tolerant
`TreeBuilder::create` performs no containment check — see the
counterexample.) -/
theorem claim_C1 :
    (∀ (root : FsPath) (fs : Fs) (idx : Nat) (e : TempDirBuilder.Entry),
      e.path.isEmptyPath = false →
      FsPath.startsWith (resolvedPath root e.path) root = false →
      TempDirBuilder.buildEntry root fs idx e =
        (some (.EntryOutsideDirectory e.path), fs)) ∧
    (∀ (b : TempDirBuilder.TempDirectoryBuilder) (fs : Fs) (t : TempDirBuilder.TempDirectory),
      (b.build fs).result = .ok t →
      ∀ e ∈ b.entries,
        FsPath.startsWith (resolvedPath b.root e.path) b.root = true) := by
  constructor
  · intro root fs idx e hne hsw
    unfold TempDirBuilder.buildEntry
    rw [if_neg (by simp [hne]), if_pos (by simp [hsw])]
  · intro b fs t h e he
    obtain ⟨fs1, hs, he2, ht⟩ := TempDirBuilder.build_ok_entries h
    exact (TempDirBuilder.entries_ok_checks b.entries fs1 0 _ he2 e he).2

theorem claim_C1_witness :
    TempDirBuilder.buildEntry rootT [(rootT, FsNode.dir false)] 0
      ⟨⟨false, ["..", "foo"]⟩, .EmptyFile⟩ =
      (some (.EntryOutsideDirectory ⟨false, ["..", "foo"]⟩),
        [(rootT, FsNode.dir false)]) :=
  claim_C1.1 rootT [(rootT, FsNode.dir false)] 0
    ⟨⟨false, ["..", "foo"]⟩, .EmptyFile⟩ rfl (by decide)

/-- C1 is false of the tolerant materializer `TreeBuilder::create`: an
entry whose cleaned join escapes the root is materialized without any
error — the create succeeds and a file appears at `/tmp/outside`, outside
the root `/tmp/r`. -/
theorem claim_C1_counterexample :
    (bC1.create []).result = .ok ⟨rootT, true⟩ ∧
    fsLookup (bC1.create []).fs ⟨true, ["tmp", "outside"]⟩ =
      some (.file [] false) ∧
    FsPath.startsWith ⟨true, ["tmp", "outside"]⟩ rootT = false := by
  refine ⟨by decide, by decide, by decide⟩

/-- C3 (as amended): materializing a non-override `TreeConfig` twice
against the same root: in the tolerant materializer the second `create` is
a complete no-op — it succeeds and returns the filesystem of the first run
unchanged, every entry being skipped-on-exists; in the strict materializer,
provided the config has at least one entry, the second `build` fails with
`DuplicateEntry` at the first entry's resolved path.  (With an empty entry
list the strict second build succeeds too — see the counterexample.) -/
theorem claim_C3 :
    (∀ (b : TreeFs.TreeBuilder) (fs : Fs) (t : TreeFs.Tree),
      b.override_file = false → (b.create fs).result = .ok t →
      b.create ((b.create fs).fs) = ⟨.ok ⟨b.root, b.drop⟩, (b.create fs).fs⟩) ∧
    (∀ (b : TempDirBuilder.TempDirectoryBuilder) (fs : Fs)
      (t : TempDirBuilder.TempDirectory) (e : TempDirBuilder.Entry)
      (rest : List TempDirBuilder.Entry),
      b.entries = e :: rest → (b.build fs).result = .ok t →
      (b.build (b.build fs).fs).result =
        .error (.DuplicateEntry (resolvedPath b.root e.path))) :=
  ⟨fun _ _ _ hov h => TreeFs.createT_idem hov h,
    fun _ _ _ _ _ hent h => TempDirBuilder.build_strict_second hent h⟩

theorem claim_C3_witness :
    bC3t.create ((bC3t.create []).fs) = ⟨.ok ⟨rootT, true⟩, (bC3t.create []).fs⟩ ∧
    (bC3s.build ((bC3s.build []).fs)).result =
      .error (.DuplicateEntry (resolvedPath rootT ⟨false, ["f"]⟩)) :=
  ⟨claim_C3.1 bC3t [] ⟨rootT, true⟩ rfl (by decide),
    claim_C3.2 bC3s [] ⟨rootT, true⟩ ⟨⟨false, ["f"]⟩, .EmptyFile⟩ [] rfl (by decide)⟩

theorem claim_C3_counterexample :
    (bC3e.build []).result = .ok ⟨rootT, true⟩ ∧
    (bC3e.build ((bC3e.build []).fs)).result = .ok ⟨rootT, true⟩ := by
  refine ⟨by decide, by decide⟩

/-- C4 (as amended): in the strict materializer against a fresh root
(nothing exists at or under the root), `DuplicateEntry` is never returned
provided that, beyond being pairwise distinct, no entry's resolved path
equals the root and no entry's resolved path is a prefix (ancestor) of an
earlier entry's resolved path.  Pairwise distinctness alone does not
suffice, because parent directories implicitly created for an earlier
entry also make a later entry's path "already existing" — see the
counterexample. -/
theorem claim_C4 :
    ∀ (b : TempDirBuilder.TempDirectoryBuilder) (fs : Fs),
      (∀ q, FsPath.startsWith q b.root = true → fsLookup fs q = none) →
      (∀ e ∈ b.entries, resolvedPath b.root e.path ≠ b.root) →
      b.entries.Pairwise (fun a c =>
        ¬((resolvedPath b.root c.path).absolute =
            (resolvedPath b.root a.path).absolute ∧
          (resolvedPath b.root c.path).comps <+:
            (resolvedPath b.root a.path).comps)) →
      ∀ p, (b.build fs).result ≠ .error (.DuplicateEntry p) := by
  intro b fs hfreshRoot hroot hpw p h
  obtain ⟨fs1, hs, he⟩ :=
    TempDirBuilder.build_err_entries h (fun p' hcon => by cases hcon)
  refine TempDirBuilder.entries_no_dup b.root b.entries fs1 0
    (fun q => (fsLookup fs q).isSome = true ∨
      (q.absolute = b.root.absolute ∧ q.comps <+: b.root.comps)) ?_ ?_ hpw p _ he
  · intro q n hq
    rcases TempDirBuilder.stepRoot_new hs q n hq with hold | ⟨_, hab, hpre, _⟩
    · exact Or.inl (by rw [hold]; rfl)
    · exact Or.inr ⟨hab, hpre⟩
  · intro e he2 hsw hD
    rcases hD with hD | ⟨hab, hpre⟩
    · rw [hfreshRoot _ hsw] at hD
      cases hD
    · rcases startsWith_iff.mp hsw with ⟨hab2, hpre2⟩
      exact hroot e he2 (fspath_eq hab (prefAntisymm hpre hpre2))

theorem claim_C4_witness :
    (bC4w.build []).result ≠ .error (.DuplicateEntry rootT) :=
  claim_C4 bC4w [] (fun q _ => rfl)
    (by
      intro e he
      rcases List.mem_cons.mp he with rfl | he2
      · decide
      · rcases List.mem_cons.mp he2 with rfl | he3
        · decide
        · cases he3)
    (by decide) rootT

theorem claim_C4_counterexample :
    resolvedPath rootT ⟨false, ["a", "b"]⟩ ≠ resolvedPath rootT ⟨false, ["a"]⟩ ∧
    (bC4c.build []).result =
      .error (.DuplicateEntry ⟨true, ["tmp", "r", "a"]⟩) := by
  refine ⟨by decide, by decide⟩

/-- C6 (as amended): in the strict materializer, a builder with an empty
entry list whose root is creatable (it already exists, or
`create_dir_all` on it succeeds) materializes successfully, afterwards the
root exists, and nothing was created beyond the root's missing ancestor
directories.  (The legacy `tree-fs` `Tree::create` does not create the
root at all — see the counterexample.) -/
theorem claim_C6 :
    ∀ (b : TempDirBuilder.TempDirectoryBuilder) (fs : Fs),
      b.entries = [] →
      ((fsLookup fs b.root).isSome = true ∨
        (fsCreateDirAll fs b.root).isSome = true) →
      (b.build fs).result = .ok ⟨b.root, b.delete_on_drop⟩ ∧
      (b.root.comps ≠ [] → fsLookup (b.build fs).fs b.root ≠ none) ∧
      (∀ q n, fsLookup (b.build fs).fs q = some n →
        fsLookup fs q = some n ∨
          (n = .dir false ∧ q.absolute = b.root.absolute ∧
            q.comps <+: b.root.comps ∧ q.comps ≠ [])) := by
  intro b fs hent hcr
  have hs : ∃ fs1, TempDirBuilder.stepRoot b.root fs = (none, fs1) := by
    by_cases hex : (fsLookup fs b.root).isSome = true
    · exact ⟨fs, by unfold TempDirBuilder.stepRoot; rw [if_pos hex]⟩
    · rcases hcr with hex2 | hcr2
      · exact absurd hex2 hex
      · rcases Option.isSome_iff_exists.mp hcr2 with ⟨fs2, heq⟩
        exact ⟨fs2, by unfold TempDirBuilder.stepRoot; rw [if_neg hex, heq]⟩
  obtain ⟨fs1, hs⟩ := hs
  have hbuild : b.build fs = ⟨.ok ⟨b.root, b.delete_on_drop⟩, fs1⟩ := by
    unfold TempDirBuilder.TempDirectoryBuilder.build
    rw [hs, hent]
    rfl
  refine ⟨by rw [hbuild], ?_, ?_⟩
  · intro hcne
    rw [hbuild]
    exact TempDirBuilder.stepRoot_ok_root hs hcne
  · intro q n
    rw [hbuild]
    exact TempDirBuilder.stepRoot_new hs q n

theorem claim_C6_witness :
    (bC6.build []).result = .ok ⟨rootT, true⟩ ∧
    (rootT.comps ≠ [] → fsLookup (bC6.build []).fs rootT ≠ none) ∧
    (∀ q n, fsLookup (bC6.build []).fs q = some n →
      fsLookup [] q = some n ∨
        (n = .dir false ∧ q.absolute = rootT.absolute ∧
          q.comps <+: rootT.comps ∧ q.comps ≠ [])) :=
  claim_C6 bC6 [] rfl (Or.inr (by decide))

theorem claim_C6_counterexample :
    (ltC6.create []).1 = none ∧ (ltC6.create []).2 = [] ∧
    fsLookup (ltC6.create []).2 ltC6.root_folder = none :=
  ⟨rfl, rfl, rfl⟩

/-- C8 (as amended): in the strict materializer, after a successful build
every `TextFile`/`BinaryFile` entry reads back at its resolved path
byte-for-byte equal to its declared content (UTF-8 encoded for text), as a
writable file.  (In the tolerant variant with `override_file = true`, a
later entry at the same resolved path overwrites the earlier content, so
the earlier entry no longer reads back equal — see the counterexample.) -/
theorem claim_C8 :
    ∀ (b : TempDirBuilder.TempDirectoryBuilder) (fs : Fs)
      (t : TempDirBuilder.TempDirectory),
      (b.build fs).result = .ok t →
      ∀ e ∈ b.entries,
        (∀ s, e.kind = .TextFile s →
          fsLookup (b.build fs).fs (resolvedPath b.root e.path) =
            some (.file (strBytes s) false)) ∧
        (∀ bs, e.kind = .BinaryFile bs →
          fsLookup (b.build fs).fs (resolvedPath b.root e.path) =
            some (.file bs false)) := by
  intro b fs t h e he
  obtain ⟨fs1, hs, he2, ht⟩ := TempDirBuilder.build_ok_entries h
  exact ⟨fun s hk => TempDirBuilder.entries_ok_text b.entries fs1 0 _ he2 e he s hk,
    fun bs hk => TempDirBuilder.entries_ok_binary b.entries fs1 0 _ he2 e he bs hk⟩

theorem claim_C8_witness :
    fsLookup (bC8w.build []).fs (resolvedPath rootT ⟨false, ["t"]⟩) =
      some (.file (strBytes "hi") false) ∧
    fsLookup (bC8w.build []).fs (resolvedPath rootT ⟨false, ["b"]⟩) =
      some (.file [0, 255] false) :=
  ⟨(claim_C8 bC8w [] ⟨rootT, true⟩ (by decide) _ (List.mem_cons_self _ _)).1 "hi" rfl,
    (claim_C8 bC8w [] ⟨rootT, true⟩ (by decide) _
      (List.mem_cons_of_mem _ (List.mem_cons_self _ _))).2 [0, 255] rfl⟩

theorem claim_C8_counterexample :
    (bC8c.create []).result = .ok ⟨rootT, true⟩ ∧
    fsLookup (bC8c.create []).fs (resolvedPath rootT ⟨false, ["f"]⟩) =
      some (.file (strBytes "b") false) ∧
    strBytes "b" ≠ strBytes "a" := by
  refine ⟨by decide, by decide, by decide⟩
